import Mathlib

/-!
Verification development for the storage / transactional core of the dumbdb
engine (crate `backend`, with `storage` as secondary source for the buffer
manager).  Every definition is a shallow embedding of the corresponding Rust
item; machine integers are modelled as `Nat`/`Int` with explicit ranges, pages
as byte lists, and stateful code as explicit state passing.
-/

namespace DumbDB

/-! ## Byte-level primitives

Source: `backend/src/page.rs`.  A byte is a `Nat` below 256.  Multi-byte
integers are stored little-endian (`byteorder::LittleEndian`), string lengths
big-endian (`u32::to_be_bytes`). -/

/-- Little-endian encoding of `v` on `w` bytes (low byte first), as produced by
`LittleEndian::write_uXX`. -/
def encLE : Nat → Nat → List Nat
  | 0, _ => []
  | w + 1, v => v % 256 :: encLE w (v / 256)

/-- Little-endian decoding (low byte first), as `LittleEndian::read_uXX`. -/
def decLE : List Nat → Nat
  | [] => 0
  | b :: rest => b + 256 * decLE rest

theorem encLE_length (w v : Nat) : (encLE w v).length = w := by
  induction w generalizing v with
  | zero => rfl
  | succ w ih => simp [encLE, ih]

theorem decLE_encLE (w v : Nat) (h : v < 256 ^ w) : decLE (encLE w v) = v := by
  induction w generalizing v with
  | zero =>
    simp [encLE, decLE]
    omega
  | succ w ih =>
    have hlt : v / 256 < 256 ^ w := by
      rw [Nat.div_lt_iff_lt_mul (by norm_num)]
      calc v < 256 ^ (w + 1) := h
        _ = 256 ^ w * 256 := by ring
    simp [encLE, decLE, ih (v / 256) hlt]
    omega

theorem decLE_lt (bs : List Nat) (h : ∀ b ∈ bs, b < 256) :
    decLE bs < 256 ^ bs.length := by
  induction bs with
  | nil => simp [decLE]
  | cons b rest ih =>
    have hb : b < 256 := h b (by simp)
    have hr := ih (fun x hx => h x (by simp [hx]))
    simp only [decLE, List.length_cons, pow_succ]
    calc b + 256 * decLE rest < 256 + 256 * decLE rest := by omega
      _ = 256 * (decLE rest + 1) := by ring
      _ ≤ 256 * 256 ^ rest.length := by
          have : decLE rest + 1 ≤ 256 ^ rest.length := hr
          exact Nat.mul_le_mul_left 256 this
      _ = 256 ^ rest.length * 256 := by ring

theorem encLE_decLE (bs : List Nat) (h : ∀ b ∈ bs, b < 256) :
    encLE bs.length (decLE bs) = bs := by
  induction bs with
  | nil => rfl
  | cons b rest ih =>
    have hb : b < 256 := h b (by simp)
    have hr := ih (fun x hx => h x (by simp [hx]))
    have h1 : (b + 256 * decLE rest) % 256 = b := by omega
    have h2 : (b + 256 * decLE rest) / 256 = decLE rest := by omega
    simp [encLE, decLE, h1, h2, hr]

theorem encLE_bytes_lt (w v : Nat) : ∀ b ∈ encLE w v, b < 256 := by
  induction w generalizing v with
  | zero => simp [encLE]
  | succ w ih =>
    intro b hb
    simp only [encLE, List.mem_cons] at hb
    rcases hb with h | h
    · omega
    · exact ih (v / 256) b h

/-- Big-endian 4-byte encoding, as `u32::to_be_bytes` (used for string
lengths). -/
def encBE4 (v : Nat) : List Nat := (encLE 4 v).reverse

/-- Big-endian 4-byte decoding, as `u32::from_be_bytes`. -/
def decBE4 (bs : List Nat) : Nat := decLE bs.reverse

theorem encBE4_length (v : Nat) : (encBE4 v).length = 4 := by
  simp [encBE4, encLE_length]

theorem decBE4_encBE4 (v : Nat) (h : v < 256 ^ 4) : decBE4 (encBE4 v) = v := by
  simpa [decBE4, encBE4] using decLE_encLE 4 v h

/-! ## Page

Source: `backend/src/page.rs`.  `Page` is a fixed-size byte array; we model the
byte array as a `List Nat`.  `write_bytes` copies `data` into
`p[off .. off+len)`; the model below agrees with the source whenever
`off + data.length ≤ p.length` (out of bounds the source panics on the slice
index). -/

def PAGE_SIZE : Nat := 4096

/-- `Page::write_bytes`. -/
def writeBytesP (p : List Nat) (data : List Nat) (off : Nat) : List Nat :=
  p.take off ++ data ++ p.drop (off + data.length)

/-- `Page::read_bytes`. -/
def readBytesP (p : List Nat) (off len : Nat) : List Nat :=
  (p.drop off).take len

/-- `Page::new()` — zero-filled page of `P` bytes. -/
def pageNew (P : Nat) : List Nat := List.replicate P 0

theorem writeBytesP_length (p data : List Nat) (off : Nat)
    (_h : off + data.length ≤ p.length) :
    (writeBytesP p data off).length = p.length := by
  simp [writeBytesP]
  omega

/-- Writing at the boundary of a known decomposition replaces the bytes in
place. -/
theorem writeBytesP_decomp (a b data : List Nat)
    (_h : data.length ≤ b.length) :
    writeBytesP (a ++ b) data a.length = a ++ data ++ b.drop data.length := by
  unfold writeBytesP
  rw [List.take_left, List.drop_append_eq_append_drop]
  have h1 : a.drop (a.length + data.length) = [] :=
    List.drop_eq_nil_of_le (by omega)
  rw [h1, List.nil_append]
  congr 2
  omega

/-- Reading past a known prefix. -/
theorem readBytesP_skip (a b : List Nat) (off len : Nat)
    (h : a.length ≤ off) :
    readBytesP (a ++ b) off len = readBytesP b (off - a.length) len := by
  unfold readBytesP
  rw [List.drop_append_eq_append_drop]
  rw [List.drop_eq_nil_of_le h, List.nil_append]

/-- Reading inside a known prefix. -/
theorem readBytesP_within (a b : List Nat) (off len : Nat)
    (h : off + len ≤ a.length) :
    readBytesP (a ++ b) off len = readBytesP a off len := by
  unfold readBytesP
  rw [List.drop_append_eq_append_drop]
  rw [List.take_append_eq_append_take]
  have h1 : len - (a.drop off).length = 0 := by
    simp
    omega
  rw [h1]
  simp

/-- Reading an exact middle component of a decomposition. -/
theorem readBytesP_middle (a b c : List Nat) :
    readBytesP (a ++ b ++ c) a.length b.length = b := by
  rw [List.append_assoc, readBytesP_skip a (b ++ c) a.length b.length le_rfl]
  rw [Nat.sub_self]
  rw [readBytesP_within b c 0 b.length (by omega)]
  unfold readBytesP
  simp

theorem readBytesP_replicate (P off len : Nat) (h : off + len ≤ P) :
    readBytesP (List.replicate P 0) off len = List.replicate len 0 := by
  unfold readBytesP
  rw [List.drop_replicate, List.take_replicate]
  congr 1
  omega

/-! ## Typed page accessors

Source: `backend/src/page.rs`, the `WriteTypeToPage` / `ReadTypeFromPage`
implementations generated by `impl_endian_io_traits!` for
`u16, i16, u32, i32, u64, i64`, and the `&str` / `String` implementations.
`w` is `size_of::<T>()`; signed values are stored two's-complement (that is
what `LittleEndian::write_iXX` does). -/

/-- `page.write::<uNN>(v, off)` for `w = NN/8`. -/
def writeUIntP (w : Nat) (v : Nat) (p : List Nat) (off : Nat) : List Nat :=
  writeBytesP p (encLE w v) off

/-- `page.read::<uNN>(off)`. -/
def readUIntP (w : Nat) (p : List Nat) (off : Nat) : Nat :=
  decLE (readBytesP p off w)

/-- `page.write::<iNN>(v, off)` — two's-complement little-endian. -/
def writeSIntP (w : Nat) (v : Int) (p : List Nat) (off : Nat) : List Nat :=
  writeBytesP p (encLE w (v % (2 ^ (8 * w))).toNat) off

/-- `page.read::<iNN>(off)` — two's-complement little-endian. -/
def readSIntP (w : Nat) (p : List Nat) (off : Nat) : Int :=
  let n := readUIntP w p off
  if n < 2 ^ (8 * w - 1) then (n : Int) else (n : Int) - 2 ^ (8 * w)

/-- `page.write::<&str>(s, off)`: 4-byte big-endian length, then the ASCII
payload bytes (for the empty string only the four zero length bytes). -/
def writeStrP (s : List Nat) (p : List Nat) (off : Nat) : List Nat :=
  writeBytesP p (encBE4 s.length ++ s) off

/-- `page.read::<String>(off)`: read the big-endian length, then the payload
(the `len == 0` early return yields the same result as the general path). -/
def readStrP (p : List Nat) (off : Nat) : List Nat :=
  let len := decBE4 (readBytesP p off 4)
  readBytesP p (off + 4) len

theorem take_length_eq (p : List Nat) (off : Nat) (h : off ≤ p.length) :
    (p.take off).length = off := by
  simp
  omega

theorem readUIntP_writeUIntP (w v : Nat) (p : List Nat) (off : Nat)
    (hb : off + w ≤ p.length) (hv : v < 256 ^ w) :
    readUIntP w (writeUIntP w v p off) off = v := by
  unfold readUIntP writeUIntP writeBytesP
  have hlen : (p.take off).length = off := take_length_eq p off (by omega)
  have hw : (encLE w v).length = w := encLE_length w v
  have := readBytesP_middle (p.take off) (encLE w v) (p.drop (off + (encLE w v).length))
  rw [hlen, hw] at this
  rw [hw, this]
  exact decLE_encLE w v hv

theorem pow_256_eq (w : Nat) : 256 ^ w = 2 ^ (8 * w) := by
  rw [pow_mul]
  norm_num

theorem readSIntP_writeSIntP (w : Nat) (v : Int) (p : List Nat) (off : Nat)
    (hw : 1 ≤ w) (hb : off + w ≤ p.length)
    (hlo : -(2 ^ (8 * w - 1)) ≤ v) (hhi : v < 2 ^ (8 * w - 1)) :
    readSIntP w (writeSIntP w v p off) off = v := by
  have hsplit : (2 : Int) ^ (8 * w) = 2 ^ (8 * w - 1) * 2 := by
    rw [← pow_succ]
    congr 1
    omega
  have hMpos : (0 : Int) < 2 ^ (8 * w) := by positivity
  set M : Int := 2 ^ (8 * w) with hM
  have hmod : v % M = if 0 ≤ v then v else v + M := by
    split
    · exact Int.emod_eq_of_lt (by omega) (by omega)
    · have h1 : (v + M) % M = v % M := by
        have h2 := Int.add_mul_emod_self_left v M 1
        simp only [mul_one] at h2
        exact h2
      rw [← h1]
      exact Int.emod_eq_of_lt (by omega) (by omega)
  have hnn : 0 ≤ v % M := by rw [hmod]; split <;> omega
  have hub : v % M < M := by rw [hmod]; split <;> omega
  have htn : (((v % M).toNat : Int)) = v % M := Int.toNat_of_nonneg hnn
  have htlt : (v % M).toNat < 256 ^ w := by
    rw [pow_256_eq]
    have : ((v % M).toNat : Int) < ((2 ^ (8 * w) : Nat) : Int) := by
      rw [htn]
      push_cast
      omega
    exact_mod_cast this
  unfold readSIntP writeSIntP
  unfold writeUIntP at *
  have hmain :
      readUIntP w (writeBytesP p (encLE w (v % 2 ^ (8 * w)).toNat) off) off
        = (v % 2 ^ (8 * w)).toNat :=
    readUIntP_writeUIntP w (v % 2 ^ (8 * w)).toNat p off hb htlt
  simp only [hmain]
  rw [← hM]
  have hcast : (((v % M).toNat : Int)) = v % M := htn
  by_cases hpos : 0 ≤ v
  · have hvm : v % M = v := by rw [hmod]; simp [hpos]
    have : (v % M).toNat < 2 ^ (8 * w - 1) := by
      have : ((v % M).toNat : Int) < ((2 ^ (8 * w - 1) : Nat) : Int) := by
        rw [hcast, hvm]
        push_cast
        omega
      exact_mod_cast this
    rw [if_pos this, hcast, hvm]
  · have hvm : v % M = v + M := by rw [hmod]; simp [hpos]
    have hge : ¬ (v % M).toNat < 2 ^ (8 * w - 1) := by
      intro hcon
      have : ((v % M).toNat : Int) < ((2 ^ (8 * w - 1) : Nat) : Int) := by
        exact_mod_cast hcon
      rw [hcast, hvm] at this
      push_cast at this
      omega
    rw [if_neg hge, hcast, hvm]
    ring

theorem readStrP_writeStrP (s p : List Nat) (off : Nat)
    (hb : off + 4 + s.length ≤ p.length) (hlen : s.length < 256 ^ 4) :
    readStrP (writeStrP s p off) off = s := by
  unfold readStrP writeStrP writeBytesP
  have hlen4 : (encBE4 s.length).length = 4 := encBE4_length s.length
  have htake : (p.take off).length = off := take_length_eq p off (by omega)
  have hlstr : (encBE4 s.length ++ s).length = 4 + s.length := by
    rw [List.length_append, hlen4]
  set rest := p.drop (off + (encBE4 s.length ++ s).length) with hrest
  have hd1 : p.take off ++ (encBE4 s.length ++ s) ++ rest
      = p.take off ++ encBE4 s.length ++ (s ++ rest) := by
    simp [List.append_assoc]
  have hr1 : readBytesP (p.take off ++ (encBE4 s.length ++ s) ++ rest) off 4
      = encBE4 s.length := by
    rw [hd1]
    have := readBytesP_middle (p.take off) (encBE4 s.length) (s ++ rest)
    rw [htake, hlen4] at this
    exact this
  rw [hr1, decBE4_encBE4 s.length hlen]
  have hd2 : p.take off ++ (encBE4 s.length ++ s) ++ rest
      = (p.take off ++ encBE4 s.length) ++ s ++ rest := by
    simp [List.append_assoc]
  rw [hd2]
  have := readBytesP_middle (p.take off ++ encBE4 s.length) s rest
  rw [List.length_append, htake, hlen4] at this
  exact this

/-- C5: for every supported integer type `T ∈ {u16, i16, u32, i32, u64, i64}`
(widths 2, 4, 8 bytes; values in the type's range), every value `v` and offset
`o` with `o + sizeof(T) ≤ PAGE_SIZE`, reading `T` at `o` after writing `v` at
`o` returns `v`; and for every ASCII string `s` with `o + 4 + |s| ≤ PAGE_SIZE`,
reading a `String` at `o` after writing `s` at `o` returns `s`, the empty
string being a fixed point of the round-trip. -/
theorem page_typed_roundtrip (p : List Nat) (o : Nat) (hp : p.length = PAGE_SIZE) :
    (∀ v : Nat, v < 2 ^ 16 → o + 2 ≤ PAGE_SIZE →
      readUIntP 2 (writeUIntP 2 v p o) o = v) ∧
    (∀ v : Int, -(2 ^ 15) ≤ v → v < 2 ^ 15 → o + 2 ≤ PAGE_SIZE →
      readSIntP 2 (writeSIntP 2 v p o) o = v) ∧
    (∀ v : Nat, v < 2 ^ 32 → o + 4 ≤ PAGE_SIZE →
      readUIntP 4 (writeUIntP 4 v p o) o = v) ∧
    (∀ v : Int, -(2 ^ 31) ≤ v → v < 2 ^ 31 → o + 4 ≤ PAGE_SIZE →
      readSIntP 4 (writeSIntP 4 v p o) o = v) ∧
    (∀ v : Nat, v < 2 ^ 64 → o + 8 ≤ PAGE_SIZE →
      readUIntP 8 (writeUIntP 8 v p o) o = v) ∧
    (∀ v : Int, -(2 ^ 63) ≤ v → v < 2 ^ 63 → o + 8 ≤ PAGE_SIZE →
      readSIntP 8 (writeSIntP 8 v p o) o = v) ∧
    (∀ s : List Nat, (∀ b ∈ s, b < 128) → o + 4 + s.length ≤ PAGE_SIZE →
      readStrP (writeStrP s p o) o = s) ∧
    (o + 4 ≤ PAGE_SIZE → readStrP (writeStrP [] p o) o = []) := by
  refine ⟨?_, ?_, ?_, ?_, ?_, ?_, ?_, ?_⟩
  · intro v hv ho
    exact readUIntP_writeUIntP 2 v p o (by omega) (by norm_num at hv ⊢; omega)
  · intro v hlo hhi ho
    exact readSIntP_writeSIntP 2 v p o (by norm_num) (by omega)
      (by norm_num at hlo ⊢; omega) (by norm_num at hhi ⊢; omega)
  · intro v hv ho
    exact readUIntP_writeUIntP 4 v p o (by omega) (by norm_num at hv ⊢; omega)
  · intro v hlo hhi ho
    exact readSIntP_writeSIntP 4 v p o (by norm_num) (by omega)
      (by norm_num at hlo ⊢; omega) (by norm_num at hhi ⊢; omega)
  · intro v hv ho
    exact readUIntP_writeUIntP 8 v p o (by omega) (by norm_num at hv ⊢; omega)
  · intro v hlo hhi ho
    exact readSIntP_writeSIntP 8 v p o (by norm_num) (by omega)
      (by norm_num at hlo ⊢; omega) (by norm_num at hhi ⊢; omega)
  · intro s _hascii hs
    have hps : PAGE_SIZE = 4096 := rfl
    exact readStrP_writeStrP s p o (by omega) (by norm_num; omega)
  · intro ho
    exact readStrP_writeStrP [] p o (by simp; omega) (by norm_num)

/-- Witness for C5 at concrete inputs. -/
theorem page_typed_roundtrip_witness :
    readUIntP 2 (writeUIntP 2 7 (pageNew PAGE_SIZE) 0) 0 = 7 ∧
    readSIntP 4 (writeSIntP 4 (-5) (pageNew PAGE_SIZE) 8) 8 = -5 ∧
    readStrP (writeStrP [104, 105] (pageNew PAGE_SIZE) 16) 16 = [104, 105] := by
  have hp : (pageNew PAGE_SIZE).length = PAGE_SIZE := by simp [pageNew]
  refine ⟨?_, ?_, ?_⟩
  · exact (page_typed_roundtrip (pageNew PAGE_SIZE) 0 hp).1 7 (by norm_num)
      (by norm_num [PAGE_SIZE])
  · exact (page_typed_roundtrip (pageNew PAGE_SIZE) 8 hp).2.2.2.1 (-5)
      (by norm_num) (by norm_num) (by norm_num [PAGE_SIZE])
  · exact (page_typed_roundtrip (pageNew PAGE_SIZE) 16 hp).2.2.2.2.2.2.1
      [104, 105] (by decide) (by norm_num [PAGE_SIZE])

/-! ## File manager

Source: `backend/src/file_manager.rs`.  Files carry a reserved header region
followed by contiguous blocks. -/

/-- `HEADER_SIZE` — `backend/src/file_manager.rs:14`: `const HEADER_SIZE: u64 = 1024`. -/
def HEADER_SIZE : Nat := 1024

/-- `FileManager::get_file_position(bid)` =
`bid.num() * PAGE_SIZE + HEADER_SIZE`. -/
def get_file_position (blockNum : Nat) : Nat :=
  blockNum * PAGE_SIZE + HEADER_SIZE

/-- The header region `get_or_create_file` writes at file creation:
`[0u8; HEADER_SIZE]`. -/
def fileHeader : List Nat := List.replicate HEADER_SIZE 0

/-- C6 counterexample: the reserved header region is `HEADER_SIZE = 1024`
bytes, not one `PAGE_SIZE` (4096); block 0 starts at byte 1024, not 4096 as
the claim's `HEADER + 0 × PAGE_SIZE` with `HEADER = PAGE_SIZE` would give. -/
theorem header_size_counterexample :
    fileHeader.length = 1024 ∧ HEADER_SIZE ≠ PAGE_SIZE ∧
    get_file_position 0 = 1024 ∧ get_file_position 0 ≠ PAGE_SIZE := by
  refine ⟨by unfold fileHeader HEADER_SIZE; rw [List.length_replicate], by decide,
    by decide, by decide⟩

/-- C6 amended: every data file begins with a reserved zero-filled header
region of `HEADER_SIZE = 1024` bytes, and block `n` starts at byte offset
`HEADER_SIZE + n * PAGE_SIZE`. -/
theorem get_file_position_eq :
    HEADER_SIZE = 1024 ∧ fileHeader = List.replicate 1024 0 ∧
    ∀ n : Nat, get_file_position n = HEADER_SIZE + n * PAGE_SIZE := by
  refine ⟨rfl, rfl, fun n => ?_⟩
  unfold get_file_position
  omega

/-! ## Log manager

Source: `backend/src/log_manager.rs` (`LogManager<const P: usize>`).  The log
file ("log") is a list of `P`-byte blocks; the manager buffers the current
block in memory.  A log page starts with the 4-byte little-endian frontier
(`FRONTIER_POS = 0`, initial value `FRONTIER_START = 4`); records are laid out
forwards as `payload ∥ payload_length(u32 LE)`. -/

/-- `ImplLogPage::get_frontier`. -/
def getFrontier (p : List Nat) : Nat := readUIntP 4 p 0

/-- `ImplLogPage::set_frontier`. -/
def setFrontier (p : List Nat) (f : Nat) : List Nat := writeUIntP 4 f p 0

structure LogMgr (P : Nat) where
  file : List (List Nat)
  page : List Nat
  block_num : Nat
  latest_lsn : Int
  last_saved_lsn : Int
  deriving DecidableEq, Repr

/-- `LogManager::new` on an empty directory: create block 0 holding only the
initial frontier. -/
def LogMgr.init (P : Nat) : LogMgr P :=
  let page := setFrontier (pageNew P) 4
  { file := [page], page := page, block_num := 0, latest_lsn := 0,
    last_saved_lsn := 0 }

/-- `LogManager::append_block`: fresh zeroed page with frontier 4, appended to
the file (`FileManager::append_block` numbers it with the current block
count). -/
def LogMgr.append_block {P : Nat} (m : LogMgr P) : LogMgr P :=
  let page := setFrontier (pageNew P) 4
  { m with page := page, block_num := m.file.length, file := m.file ++ [page] }

/-- `LogManager::flush_all`: write the current page to its block and record
the flushed LSN. -/
def LogMgr.flush_all {P : Nat} (m : LogMgr P) : LogMgr P :=
  { m with file := m.file.set m.block_num m.page,
           last_saved_lsn := m.latest_lsn }

/-- `LogManager::flush(lsn)` — note the early `return` when
`latest_lsn >= lsn`: the page is written only when `latest_lsn < lsn`. -/
def LogMgr.flush {P : Nat} (m : LogMgr P) (lsn : Int) : LogMgr P :=
  if m.latest_lsn ≥ lsn then m else m.flush_all

/-- The assertion at the top of `LogManager::append`:
`assert!(len < P, "record does not fit in a single page!")`. -/
def appendAssertOk (P : Nat) (record : List Nat) : Prop := record.length < P

/-- `LogManager::append`.  Returns the new manager and the LSN. -/
def LogMgr.append {P : Nat} (m : LogMgr P) (record : List Nat) :
    LogMgr P × Int :=
  let len := record.length
  let frontier := getFrontier m.page
  let m1 := if frontier + len + 4 ≥ P then m.flush_all.append_block else m
  let f := getFrontier m1.page
  let pg := writeBytesP m1.page record f
  let pg := writeUIntP 4 len pg (f + len)
  let pg := setFrontier pg (f + len + 4)
  ({ m1 with page := pg, latest_lsn := m1.latest_lsn + 1 }, m1.latest_lsn + 1)

/-- Both page writes of `append` stay inside the `P`-byte page.  `m1` is the
page-selection step of `append`; the writes then cover
`[f, f+len)` and `[f+len, f+len+4)`. -/
def appendWritesInPage (P : Nat) (m : LogMgr P) (record : List Nat) : Prop :=
  let m1 := if getFrontier m.page + record.length + 4 ≥ P
            then m.flush_all.append_block else m
  getFrontier m1.page + record.length + 4 ≤ P

/-- Append a whole list of records in order. -/
def LogMgr.appendAll {P : Nat} (m : LogMgr P) (rs : List (List Nat)) :
    LogMgr P :=
  rs.foldl (fun m r => (m.append r).1) m

/-- State of `LogManagerSnapshot`: current block, its loaded page, cursor. -/
structure SnapSt where
  block_num : Nat
  page : List Nat
  pos : Nat
  deriving DecidableEq, Repr

/-- `LogManager::snapshot`: flush, re-read the current block, cursor at the
in-memory page's frontier. -/
def LogMgr.snapshot {P : Nat} (m : LogMgr P) : LogMgr P × SnapSt :=
  let m1 := m.flush_all
  let pg := m1.file.getD m1.block_num (pageNew P)
  (m1, { block_num := m1.block_num, page := pg, pos := getFrontier m.page })

/-- One step of the snapshot iterator.  `fault` marks a u32 underflow or an
out-of-bounds page index (a panic in the Rust source), `finished` is
`None`. -/
inductive SnapStep where
  | fault
  | finished
  | item (r : List Nat) (s : SnapSt)
  deriving DecidableEq, Repr

/-- The record-consuming tail of `LogManagerSnapshot::next`
(`current_pos -= 4; read length; current_pos -= len; read payload`).
`pos < 4` or `len > pos - 4` underflow the u32 cursor, `pos > P` makes the
length read overrun the page; all three panic in Rust. -/
def consumeS (P : Nat) (s : SnapSt) : SnapStep :=
  if s.pos < 4 then .fault
  else if P < s.pos then .fault
  else
    let len := readUIntP 4 s.page (s.pos - 4)
    if s.pos - 4 < len then .fault
    else .item (readBytesP s.page (s.pos - 4 - len) len)
      { s with pos := s.pos - 4 - len }

/-- `LogManagerSnapshot::next`.  At the initial frontier it moves to the
previous block (ending the iteration below block 0), re-reads the page, and
continues consuming in the same call. -/
def nextS (P : Nat) (file : List (List Nat)) (s : SnapSt) : SnapStep :=
  if s.pos < 4 then .fault
  else if s.pos = 4 then
    match s.block_num with
    | 0 => .finished
    | b + 1 =>
      let pg := file.getD b (pageNew P)
      consumeS P { block_num := b, page := pg, pos := getFrontier pg }
  else consumeS P s

/-- Drain the snapshot iterator: collect yielded records until `finished`
(`some` of them, in yield order) or a fault / fuel exhaustion (`none`). -/
def collectS (P : Nat) (file : List (List Nat)) :
    Nat → SnapSt → Option (List (List Nat))
  | 0, _ => none
  | fuel + 1, s =>
    match nextS P file s with
    | .fault => none
    | .finished => some []
    | .item r s' => (collectS P file fuel s').map (fun l => r :: l)

theorem getFrontier_fresh (P : Nat) : getFrontier (setFrontier (pageNew P) 4) = 4 := by
  unfold getFrontier setFrontier writeUIntP writeBytesP readUIntP
  simp only [List.take_zero, List.nil_append, Nat.zero_add]
  rw [readBytesP_within (encLE 4 4) _ 0 4 (by simp [encLE_length])]
  unfold readBytesP
  rw [List.drop_zero, List.take_of_length_le (by simp [encLE_length])]
  exact decLE_encLE 4 4 (by norm_num)

/-- C2: `LogManager::flush(lsn)` is a no-op precisely when `latest_lsn ≥ lsn`
— the opposite of the claim.  With one appended record (LSN 1), `flush(1)`
leaves the state (including the on-disk file and `last_saved_lsn`) unchanged,
while `flush(2)` — an LSN that does not exist yet — does write the page. -/
theorem log_flush_inverted_guard :
    ((((LogMgr.init 16).append [7]).1).latest_lsn = 1 ∧
      (((LogMgr.init 16).append [7]).1).last_saved_lsn = 0) ∧
    LogMgr.flush (((LogMgr.init 16).append [7]).1) 1 =
      ((LogMgr.init 16).append [7]).1 ∧
    (LogMgr.flush (((LogMgr.init 16).append [7]).1) 1).file =
      [setFrontier (pageNew 16) 4] ∧
    (LogMgr.flush (((LogMgr.init 16).append [7]).1) 2).last_saved_lsn = 1 := by
  decide

/-- C10: `append`'s two page writes stay in bounds for every manager state
whenever `record.len() + 8 ≤ P`; and every length in the gap left open by the
`record.len() < P` assertion (i.e. `P − 7 ≤ len ≤ P − 1`) passes the assertion
yet produces an out-of-bounds page index, witnessed at the freshly initialised
manager. -/
instance appendAssertOkDec (P : Nat) (r : List Nat) :
    Decidable (appendAssertOk P r) := Nat.decLt _ _

instance appendWritesInPageDec (P : Nat) (m : LogMgr P) (r : List Nat) :
    Decidable (appendWritesInPage P m r) := Nat.decLe _ _

theorem log_append_bound (P : Nat) :
    (∀ (m : LogMgr P) (r : List Nat), r.length + 8 ≤ P →
      appendWritesInPage P m r) ∧
    (∀ len : Nat, appendAssertOk P (List.replicate len 0) → P < len + 8 →
      ¬ appendWritesInPage P (LogMgr.init P) (List.replicate len 0)) := by
  constructor
  · intro m r hfit
    show getFrontier (if getFrontier m.page + r.length + 4 ≥ P
        then m.flush_all.append_block else m).page + r.length + 4 ≤ P
    by_cases hc : getFrontier m.page + r.length + 4 ≥ P
    · rw [if_pos hc]
      show getFrontier (setFrontier (pageNew P) 4) + r.length + 4 ≤ P
      rw [getFrontier_fresh]
      omega
    · rw [if_neg hc]
      omega
  · intro len _hassert hgap
    show ¬ getFrontier (if getFrontier (LogMgr.init P).page
          + (List.replicate len 0).length + 4 ≥ P
        then (LogMgr.init P).flush_all.append_block else LogMgr.init P).page
        + (List.replicate len 0).length + 4 ≤ P
    have hfr : getFrontier (LogMgr.init P).page = 4 := getFrontier_fresh P
    rw [List.length_replicate, hfr, if_pos (by omega)]
    show ¬ getFrontier (setFrontier (pageNew P) 4) + len + 4 ≤ P
    rw [getFrontier_fresh]
    omega

/-- Witness for C10 at `P = 16`: a 5-byte record is safe, a 9-byte record
passes the `len < P` assertion but overruns the page. -/
theorem log_append_bound_witness :
    appendWritesInPage 16 (LogMgr.init 16) [5] ∧
    ¬ appendWritesInPage 16 (LogMgr.init 16) (List.replicate 9 0) :=
  ⟨(log_append_bound 16).1 (LogMgr.init 16) [5] (by decide),
   (log_append_bound 16).2 9 (by decide) (by decide)⟩

/-- C4 counterexample: at `P = 16` the single appended record
`r₁ = [7,7,7,7,7,7,7,7]` (length `P − 8`, which satisfies the append
assertion and is appended without any out-of-bounds write) is placed in a
fresh block 1, leaving block 0 empty; the snapshot then yields `r₁` but
faults (u32 underflow) on the empty block 0 instead of ending, so the
iterator does not yield `r₁, …` and then end. -/
theorem snapshot_reverse_counterexample :
    appendAssertOk 16 (List.replicate 8 7) ∧
    appendWritesInPage 16 (LogMgr.init 16) (List.replicate 8 7) ∧
    collectS 16
      (((LogMgr.init 16).appendAll [List.replicate 8 7]).snapshot.1).file 2
      (((LogMgr.init 16).appendAll [List.replicate 8 7]).snapshot.2) = none ∧
    nextS 16
      (((LogMgr.init 16).appendAll [List.replicate 8 7]).snapshot.1).file
      (((LogMgr.init 16).appendAll [List.replicate 8 7]).snapshot.2) =
      SnapStep.item (List.replicate 8 7)
        { block_num := 1,
          page := ((LogMgr.init 16).appendAll [List.replicate 8 7]).page,
          pos := 4 } := by
  decide

/-! ### Log page layout as a function of its record chunk

`encodePage P c` is the byte content of a log page holding exactly the
records `c` (in append order): frontier, then `payload ∥ length` per record,
then zero padding.  It characterises the pages `append` builds. -/

/-- The record area of a log page holding records `c` in order. -/
def chunkBytes : List (List Nat) → List Nat
  | [] => []
  | r :: rest => r ++ encLE 4 r.length ++ chunkBytes rest

/-- The frontier of a log page holding records `c`. -/
def chunkEnd (c : List (List Nat)) : Nat := 4 + (chunkBytes c).length

/-- The full page content for records `c` on a `P`-byte page. -/
def encodePage (P : Nat) (c : List (List Nat)) : List Nat :=
  encLE 4 (chunkEnd c) ++ chunkBytes c ++ List.replicate (P - chunkEnd c) 0

theorem chunkBytes_append (a b : List (List Nat)) :
    chunkBytes (a ++ b) = chunkBytes a ++ chunkBytes b := by
  induction a with
  | nil => simp [chunkBytes]
  | cons r rest ih => simp [chunkBytes, ih]

theorem chunkEnd_nil : chunkEnd [] = 4 := rfl

theorem chunkEnd_concat (c : List (List Nat)) (r : List Nat) :
    chunkEnd (c ++ [r]) = chunkEnd c + (r.length + 4) := by
  unfold chunkEnd
  rw [chunkBytes_append]
  simp [chunkBytes, encLE_length]
  ring

theorem chunkEnd_ge (c : List (List Nat)) : 4 ≤ chunkEnd c := by
  unfold chunkEnd
  omega

theorem chunkEnd_mono (p q : List (List Nat)) :
    chunkEnd p ≤ chunkEnd (p ++ q) := by
  unfold chunkEnd
  rw [chunkBytes_append]
  simp

theorem encodePage_length (P : Nat) (c : List (List Nat))
    (h : chunkEnd c ≤ P) : (encodePage P c).length = P := by
  unfold encodePage
  have h4 : (encLE 4 (chunkEnd c)).length = 4 := encLE_length _ _
  have := chunkEnd_ge c
  simp only [List.length_append, h4, List.length_replicate]
  unfold chunkEnd at *
  omega

theorem encodePage_init (P : Nat) :
    setFrontier (pageNew P) 4 = encodePage P [] := by
  unfold setFrontier writeUIntP writeBytesP encodePage pageNew chunkBytes
  simp only [List.take_zero, List.nil_append, Nat.zero_add, encLE_length,
    List.drop_replicate]
  rw [chunkEnd_nil]
  simp

/-- Dropping the 4-byte frontier word off the front of a page. -/
theorem drop_four_enc (x : Nat) (rest : List Nat) :
    (encLE 4 x ++ rest).drop 4 = rest := by
  have h := List.drop_left (encLE 4 x) rest
  rw [encLE_length] at h
  exact h

theorem getFrontier_encodePage (P : Nat) (c : List (List Nat))
    (h32 : chunkEnd c < 256 ^ 4) :
    getFrontier (encodePage P c) = chunkEnd c := by
  unfold getFrontier readUIntP encodePage
  rw [List.append_assoc]
  rw [readBytesP_within (encLE 4 (chunkEnd c)) _ 0 4 (by simp [encLE_length])]
  unfold readBytesP
  rw [List.drop_zero, List.take_of_length_le (by simp [encLE_length])]
  exact decLE_encLE 4 (chunkEnd c) h32

/-- The three page writes `append` performs on a page holding chunk `c`
produce the page holding chunk `c ++ [r]` (provided everything fits). -/
theorem append_step_encode (P : Nat) (c : List (List Nat)) (r : List Nat)
    (h : chunkEnd c + r.length + 4 ≤ P) :
    setFrontier
        (writeUIntP 4 r.length
          (writeBytesP (encodePage P c) r (chunkEnd c))
          (chunkEnd c + r.length))
        (chunkEnd c + r.length + 4)
      = encodePage P (c ++ [r]) := by
  have hcb : (chunkBytes c).length = chunkEnd c - 4 := by
    unfold chunkEnd
    omega
  have hge := chunkEnd_ge c
  -- step 1: write the payload at the frontier
  have hlen1 : (encLE 4 (chunkEnd c) ++ chunkBytes c).length = chunkEnd c := by
    simp [encLE_length, hcb]
    omega
  have hw1 : writeBytesP (encodePage P c) r (chunkEnd c)
      = encLE 4 (chunkEnd c) ++ chunkBytes c ++ r
        ++ List.replicate (P - chunkEnd c - r.length) 0 := by
    unfold encodePage
    have hstep := writeBytesP_decomp (encLE 4 (chunkEnd c) ++ chunkBytes c)
      (List.replicate (P - chunkEnd c) 0) r (by simp; omega)
    rw [hlen1] at hstep
    rw [hstep, List.drop_replicate]
  -- step 2: write the trailing length word
  have hlen2 : (encLE 4 (chunkEnd c) ++ chunkBytes c ++ r).length
      = chunkEnd c + r.length := by
    simp [encLE_length, hcb]
    omega
  have hw2 : writeUIntP 4 r.length
        (writeBytesP (encodePage P c) r (chunkEnd c)) (chunkEnd c + r.length)
      = encLE 4 (chunkEnd c) ++ chunkBytes c ++ r ++ encLE 4 r.length
        ++ List.replicate (P - chunkEnd c - r.length - 4) 0 := by
    rw [hw1]
    unfold writeUIntP
    have hstep := writeBytesP_decomp (encLE 4 (chunkEnd c) ++ chunkBytes c ++ r)
      (List.replicate (P - chunkEnd c - r.length) 0) (encLE 4 r.length)
      (by simp [encLE_length]; omega)
    rw [hlen2] at hstep
    rw [hstep, List.drop_replicate, encLE_length]
  -- step 3: rewrite the frontier word
  rw [hw2]
  unfold setFrontier writeUIntP writeBytesP
  simp only [List.take_zero, List.nil_append, Nat.zero_add, encLE_length]
  have hdrop : (encLE 4 (chunkEnd c) ++ chunkBytes c ++ r ++ encLE 4 r.length
        ++ List.replicate (P - chunkEnd c - r.length - 4) 0).drop 4
      = chunkBytes c ++ r ++ encLE 4 r.length
        ++ List.replicate (P - chunkEnd c - r.length - 4) 0 := by
    rw [show encLE 4 (chunkEnd c) ++ chunkBytes c ++ r ++ encLE 4 r.length
        ++ List.replicate (P - chunkEnd c - r.length - 4) 0
      = encLE 4 (chunkEnd c) ++ (chunkBytes c ++ r ++ encLE 4 r.length
        ++ List.replicate (P - chunkEnd c - r.length - 4) 0) from by
        simp [List.append_assoc]]
    rw [drop_four_enc]
  rw [hdrop]
  unfold encodePage
  rw [chunkEnd_concat, chunkBytes_append]
  simp only [chunkBytes, List.append_nil]
  rw [show chunkEnd c + (r.length + 4) = chunkEnd c + r.length + 4 from by ring]
  rw [show P - (chunkEnd c + r.length + 4) = P - chunkEnd c - r.length - 4 from by omega]
  simp [List.append_assoc]

/-! ### Snapshot iteration over encoded pages -/

/-- `consumeS` on a page holding chunk `p ++ [r] ++ q`, with the cursor at the
end of `p ++ [r]`, yields `r` and moves the cursor to the end of `p`. -/
theorem consumeS_chunk (P blk : Nat) (p q : List (List Nat)) (r : List Nat)
    (hle : chunkEnd (p ++ [r] ++ q) ≤ P) (h32 : P < 256 ^ 4) :
    consumeS P ⟨blk, encodePage P (p ++ [r] ++ q), chunkEnd (p ++ [r])⟩
      = SnapStep.item r ⟨blk, encodePage P (p ++ [r] ++ q), chunkEnd p⟩ := by
  have hcc : chunkEnd (p ++ [r]) = chunkEnd p + (r.length + 4) := chunkEnd_concat p r
  have hgp := chunkEnd_ge p
  have hmono : chunkEnd (p ++ [r]) ≤ chunkEnd (p ++ [r] ++ q) := chunkEnd_mono (p ++ [r]) q
  have hcbp : (chunkBytes p).length = chunkEnd p - 4 := by
    unfold chunkEnd
    omega
  -- the two reads
  have hsplit1 : encodePage P (p ++ [r] ++ q)
      = (encLE 4 (chunkEnd (p ++ [r] ++ q)) ++ chunkBytes p ++ r) ++ encLE 4 r.length
        ++ (chunkBytes q ++ List.replicate (P - chunkEnd (p ++ [r] ++ q)) 0) := by
    unfold encodePage
    rw [chunkBytes_append, chunkBytes_append]
    simp [chunkBytes, List.append_assoc]
  have hsplit2 : encodePage P (p ++ [r] ++ q)
      = (encLE 4 (chunkEnd (p ++ [r] ++ q)) ++ chunkBytes p) ++ r
        ++ (encLE 4 r.length ++ chunkBytes q
            ++ List.replicate (P - chunkEnd (p ++ [r] ++ q)) 0) := by
    unfold encodePage
    rw [chunkBytes_append, chunkBytes_append]
    simp [chunkBytes, List.append_assoc]
  have hlenr : readUIntP 4 (encodePage P (p ++ [r] ++ q)) (chunkEnd (p ++ [r]) - 4)
      = r.length := by
    unfold readUIntP
    rw [hsplit1]
    have hla : (encLE 4 (chunkEnd (p ++ [r] ++ q)) ++ chunkBytes p ++ r).length
        = chunkEnd (p ++ [r]) - 4 := by
      simp [encLE_length, hcbp]
      omega
    have hmid := readBytesP_middle
      (encLE 4 (chunkEnd (p ++ [r] ++ q)) ++ chunkBytes p ++ r)
      (encLE 4 r.length)
      (chunkBytes q ++ List.replicate (P - chunkEnd (p ++ [r] ++ q)) 0)
    rw [hla, encLE_length] at hmid
    rw [hmid]
    exact decLE_encLE 4 r.length (by omega)
  have hreadr : readBytesP (encodePage P (p ++ [r] ++ q)) (chunkEnd p) r.length
      = r := by
    rw [hsplit2]
    have hla : (encLE 4 (chunkEnd (p ++ [r] ++ q)) ++ chunkBytes p).length
        = chunkEnd p := by
      simp [encLE_length, hcbp]
      omega
    have hmid := readBytesP_middle
      (encLE 4 (chunkEnd (p ++ [r] ++ q)) ++ chunkBytes p) r
      (encLE 4 r.length ++ chunkBytes q
        ++ List.replicate (P - chunkEnd (p ++ [r] ++ q)) 0)
    rw [hla] at hmid
    exact hmid
  -- evaluate the branches of consumeS
  have h1 : ¬ (chunkEnd (p ++ [r]) < 4) := by omega
  have h2 : ¬ (P < chunkEnd (p ++ [r])) := by omega
  unfold consumeS
  simp only [h1, h2, if_false, hlenr]
  have h3 : ¬ (chunkEnd (p ++ [r]) - 4 < r.length) := by omega
  simp only [h3, if_false]
  have harith : chunkEnd (p ++ [r]) - 4 - r.length = chunkEnd p := by omega
  rw [harith, hreadr]

/-- `next` away from the frontier start just consumes from the current page. -/
theorem nextS_consume_case (P : Nat) (file : List (List Nat)) (s : SnapSt)
    (h4 : 4 < s.pos) :
    nextS P file s = consumeS P s := by
  unfold nextS
  rw [if_neg (by omega), if_neg (by omega)]

/-- `next` at the frontier start of block `b + 1` re-reads block `b` and
consumes from it in the same call. -/
theorem nextS_reload (P : Nat) (file : List (List Nat)) (b : Nat)
    (page : List Nat) :
    nextS P file ⟨b + 1, page, 4⟩
      = consumeS P ⟨b, file.getD b (pageNew P),
          getFrontier (file.getD b (pageNew P))⟩ := by
  unfold nextS
  simp

/-- `next` at the frontier start of block 0 ends the iteration. -/
theorem nextS_done (P : Nat) (file : List (List Nat)) (page : List Nat) :
    nextS P file ⟨0, page, 4⟩ = SnapStep.finished := by
  unfold nextS
  simp

theorem getD_take_lt {α : Type} (L : List α) (m i : Nat) (d : α) (h : i < m) :
    (L.take m).getD i d = L.getD i d := by
  induction L generalizing m i with
  | nil => simp
  | cons a t ih =>
    cases m with
    | zero => omega
    | succ m =>
      cases i with
      | zero => simp
      | succ i =>
        simp only [List.take_succ_cons, List.getD_cons_succ]
        exact ih m i (by omega)

theorem getD_mem_of_lt {α : Type} (L : List α) (i : Nat) (d : α)
    (h : i < L.length) : L.getD i d ∈ L := by
  induction L generalizing i with
  | nil => simp at h
  | cons a t ih =>
    cases i with
    | zero => simp
    | succ i =>
      simp only [List.getD_cons_succ]
      exact List.mem_cons_of_mem a (ih i (by simpa using h))

theorem flatten_take_succ {α : Type} (L : List (List α)) (k : Nat)
    (h : k < L.length) :
    (L.take (k + 1)).flatten = (L.take k).flatten ++ L.getD k [] := by
  induction L generalizing k with
  | nil => simp at h
  | cons a t ih =>
    cases k with
    | zero => simp
    | succ k =>
      simp only [List.take_succ_cons, List.flatten_cons, List.getD_cons_succ]
      rw [ih k (by simpa using h)]
      simp [List.append_assoc]

/-- Unfolding one step of `collectS`. -/
theorem collectS_succ (P : Nat) (file : List (List Nat)) (fuel : Nat)
    (s : SnapSt) :
    collectS P file (fuel + 1) s =
      match nextS P file s with
      | .fault => none
      | .finished => some []
      | .item r s' => (collectS P file fuel s').map (fun l => r :: l) := rfl

/-- Invariant of a mid-iteration snapshot: blocks `0 .. blk-1` of the file
encode the chunks below the current one, the loaded page encodes the current
block's full chunk, the cursor sits at the end of its prefix `p`, and the
records not yet yielded are the lower chunks joined with `p`. -/
def SnapInv (P : Nat) (file : List (List Nat)) (blk : Nat) (page : List Nat)
    (pos : Nat) (rem : List (List Nat)) : Prop :=
  ∃ (chunks : List (List (List Nat))) (p q : List (List Nat)),
    chunks ≠ [] ∧
    blk + 1 = chunks.length ∧
    (∀ i, i + 1 < chunks.length →
      file.getD i (pageNew P) = encodePage P (chunks.getD i [])) ∧
    page = encodePage P (chunks.getD (chunks.length - 1) []) ∧
    chunks.getD (chunks.length - 1) [] = p ++ q ∧
    pos = chunkEnd p ∧
    rem = (chunks.take (chunks.length - 1)).flatten ++ p ∧
    (∀ c ∈ chunks, chunkEnd c ≤ P) ∧
    (∀ i, i + 1 < chunks.length → chunks.getD i [] ≠ [])

/-- Draining an invariant-satisfying snapshot yields exactly the remaining
records newest-first and then ends. -/
theorem collect_of_snapInv (P : Nat) (h32 : P < 256 ^ 4)
    (file : List (List Nat)) :
    ∀ (n : Nat) (blk : Nat) (page : List Nat) (pos : Nat)
      (rem : List (List Nat)),
      rem.length = n → SnapInv P file blk page pos rem →
      collectS P file (n + 1) ⟨blk, page, pos⟩ = some rem.reverse := by
  intro n
  induction n with
  | zero =>
    intro blk page pos rem hlen hinv
    obtain ⟨chunks, p, q, hne, hblk, _hfile, _hpage, _hlast, hpos, hrem, _hbound,
      hnonempty⟩ := hinv
    have hrnil : rem = [] := List.eq_nil_of_length_eq_zero hlen
    subst hrnil
    obtain ⟨hjoin, hp⟩ := List.append_eq_nil.mp hrem.symm
    subst hp
    -- a second chunk would be nonempty and contribute to the joined prefix
    have hone : chunks.length = 1 := by
      cases chunks with
      | nil => exact absurd rfl hne
      | cons c0 rest =>
        cases rest with
        | nil => rfl
        | cons c1 rest' =>
          exfalso
          have h0ne : (c0 :: c1 :: rest').getD 0 [] ≠ [] :=
            hnonempty 0 (by simp)
          simp only [List.getD_cons_zero] at h0ne
          have hlen1 : (c0 :: c1 :: rest').length - 1 = rest'.length + 1 := by
            simp
          rw [hlen1, List.take_succ_cons] at hjoin
          simp only [List.flatten_cons] at hjoin
          exact h0ne (List.append_eq_nil.mp hjoin).1
    have hblk0 : blk = 0 := by omega
    subst hblk0
    rw [hpos, chunkEnd_nil]
    rw [collectS_succ, nextS_done]
    rfl
  | succ n ih =>
    intro blk page pos rem hlen hinv
    obtain ⟨chunks, p, q, hne, hblk, hfile, hpage, hlast, hpos, hrem, hbound,
      hnonempty⟩ := hinv
    have hlenpos : 1 ≤ chunks.length := by
      cases chunks with
      | nil => exact absurd rfl hne
      | cons c0 rest => simp
    rcases List.eq_nil_or_concat p with hp | ⟨p', r, hp⟩
    · -- cursor at the frontier start: reload the previous block
      subst hp
      have hremne : rem ≠ [] := by
        intro h
        rw [h] at hlen
        simp at hlen
      have hlen2 : 2 ≤ chunks.length := by
        by_contra hcon
        have h1 : chunks.length = 1 := by omega
        rw [h1] at hrem
        simp at hrem
        exact hremne hrem
      obtain ⟨k, hk⟩ : ∃ k, chunks.length = k + 2 := ⟨chunks.length - 2, by omega⟩
      have hblkk : blk = k + 1 := by omega
      subst hblkk
      have hposk : pos = 4 := by rw [hpos, chunkEnd_nil]
      subst hposk
      -- the reloaded page encodes chunk k, which is nonempty
      have hfk : file.getD k (pageNew P) = encodePage P (chunks.getD k []) :=
        hfile k (by omega)
      have hckne : chunks.getD k [] ≠ [] := hnonempty k (by omega)
      have hckmem : chunks.getD k [] ∈ chunks := getD_mem_of_lt chunks k [] (by omega)
      have hckle : chunkEnd (chunks.getD k []) ≤ P := hbound _ hckmem
      obtain ⟨p0, r, hp0⟩ := (List.eq_nil_or_concat (chunks.getD k [])).resolve_left hckne
      rw [List.concat_eq_append] at hp0
      have hfr : getFrontier (file.getD k (pageNew P))
          = chunkEnd (chunks.getD k []) := by
        rw [hfk]
        exact getFrontier_encodePage P _ (by omega)
      -- one iterator step: reload + consume the last record of chunk k
      have hstep := consumeS_chunk P k p0 [] r
        (by rw [List.append_nil, ← hp0]; exact hckle) h32
      rw [List.append_nil] at hstep
      have hnext : nextS P file ⟨k + 1, page, 4⟩
          = SnapStep.item r ⟨k, encodePage P (chunks.getD k []), chunkEnd p0⟩ := by
        rw [nextS_reload, hfr, hfk, hp0]
        exact hstep
      -- the new invariant state
      have hrem' : rem = ((chunks.take (k + 1)).take k).flatten ++ p0 ++ [r] := by
        rw [hrem, hk, List.append_nil]
        have hmm : k + 2 - 1 = k + 1 := by omega
        rw [hmm, flatten_take_succ chunks k (by omega), hp0]
        rw [List.take_take]
        have hmin : min k (k + 1) = k := by omega
        rw [hmin]
        simp [List.append_assoc]
      have hlen' : (((chunks.take (k + 1)).take k).flatten ++ p0).length = n := by
        have h := hlen
        rw [hrem'] at h
        simp only [List.length_append, List.length_cons, List.length_nil] at h ⊢
        omega
      have hinv' : SnapInv P file k (encodePage P (chunks.getD k []))
          (chunkEnd p0) (((chunks.take (k + 1)).take k).flatten ++ p0) := by
        refine ⟨chunks.take (k + 1), p0, [r], ?_, ?_, ?_, ?_, ?_, rfl, ?_, ?_, ?_⟩
        · have hl : (chunks.take (k + 1)).length = k + 1 := by
            rw [List.length_take]
            omega
          intro hcon
          rw [hcon] at hl
          simp at hl
        · rw [List.length_take]
          omega
        · intro i hi
          rw [List.length_take] at hi
          rw [getD_take_lt chunks (k + 1) i [] (by omega)]
          exact hfile i (by omega)
        · have hl : (chunks.take (k + 1)).length - 1 = k := by
            rw [List.length_take]
            omega
          rw [hl, getD_take_lt chunks (k + 1) k [] (by omega)]
        · have hl : (chunks.take (k + 1)).length - 1 = k := by
            rw [List.length_take]
            omega
          rw [hl, getD_take_lt chunks (k + 1) k [] (by omega)]
          exact hp0
        · have hl : (chunks.take (k + 1)).length - 1 = k := by
            rw [List.length_take]
            omega
          rw [hl]
        · intro c hc
          exact hbound c (List.take_subset (k + 1) chunks hc)
        · intro i hi
          rw [List.length_take] at hi
          rw [getD_take_lt chunks (k + 1) i [] (by omega)]
          exact hnonempty i (by omega)
      have hih := ih k (encodePage P (chunks.getD k [])) (chunkEnd p0)
        (((chunks.take (k + 1)).take k).flatten ++ p0) hlen' hinv'
      show collectS P file (n + 1 + 1) ⟨k + 1, page, 4⟩ = some rem.reverse
      rw [collectS_succ, hnext]
      show (collectS P file (n + 1) _).map _ = some rem.reverse
      rw [hih, hrem']
      simp
    · -- cursor inside the page: consume the last record of the prefix
      rw [List.concat_eq_append] at hp
      subst hp
      have hlastmem : chunks.getD (chunks.length - 1) [] ∈ chunks :=
        getD_mem_of_lt chunks (chunks.length - 1) [] (by omega)
      have hlastle : chunkEnd (chunks.getD (chunks.length - 1) []) ≤ P :=
        hbound _ hlastmem
      have hccat := chunkEnd_concat p' r
      have hge' := chunkEnd_ge p'
      have hposgt : 4 < pos := by
        rw [hpos, hccat]
        omega
      have hstep := consumeS_chunk P blk p' q r (by rw [← hlast]; exact hlastle) h32
      have hnext : nextS P file ⟨blk, page, pos⟩
          = SnapStep.item r ⟨blk, page, chunkEnd p'⟩ := by
        rw [nextS_consume_case P file _ hposgt]
        rw [show (⟨blk, page, pos⟩ : SnapSt)
            = ⟨blk, encodePage P (p' ++ [r] ++ q), chunkEnd (p' ++ [r])⟩ from by
          rw [hpos, hpage, hlast]]
        rw [hstep, hpage, hlast]
      have hrem' : rem = ((chunks.take (chunks.length - 1)).flatten ++ p') ++ [r] := by
        rw [hrem]
        simp [List.append_assoc]
      have hlen' : ((chunks.take (chunks.length - 1)).flatten ++ p').length = n := by
        have h := hlen
        rw [hrem'] at h
        simp only [List.length_append, List.length_cons, List.length_nil] at h ⊢
        omega
      have hinv' : SnapInv P file blk page (chunkEnd p')
          ((chunks.take (chunks.length - 1)).flatten ++ p') := by
        refine ⟨chunks, p', [r] ++ q, hne, hblk, hfile, hpage, ?_, rfl, rfl,
          hbound, hnonempty⟩
        rw [hlast]
        simp [List.append_assoc]
      have hih := ih blk page (chunkEnd p')
        ((chunks.take (chunks.length - 1)).flatten ++ p') hlen' hinv'
      show collectS P file (n + 1 + 1) ⟨blk, page, pos⟩ = some rem.reverse
      rw [collectS_succ, hnext]
      show (collectS P file (n + 1) _).map _ = some rem.reverse
      rw [hih, hrem']
      simp

/-! ### Manager-side invariant -/

theorem getD_set_eq {α : Type} (L : List α) (i : Nat) (x d : α)
    (h : i < L.length) : (L.set i x).getD i d = x := by
  induction L generalizing i with
  | nil => simp at h
  | cons a t ih =>
    cases i with
    | zero => simp
    | succ i => simpa using ih i (by simpa using h)

theorem getD_set_ne {α : Type} (L : List α) (i j : Nat) (x d : α)
    (h : i ≠ j) : (L.set i x).getD j d = L.getD j d := by
  induction L generalizing i j with
  | nil => simp
  | cons a t ih =>
    cases i with
    | zero =>
      cases j with
      | zero => exact absurd rfl h
      | succ j => simp
    | succ i =>
      cases j with
      | zero => simp
      | succ j => simpa using ih i j (by omega)

theorem getD_append_left {α : Type} (a b : List α) (i : Nat) (d : α)
    (h : i < a.length) : (a ++ b).getD i d = a.getD i d := by
  induction a generalizing i with
  | nil => simp at h
  | cons x t ih =>
    cases i with
    | zero => simp
    | succ i => simpa using ih i (by simpa using h)

theorem getD_append_len {α : Type} (a : List α) (x d : α) :
    (a ++ [x]).getD a.length d = x := by
  induction a with
  | nil => simp
  | cons y t ih =>
    simp only [List.cons_append, List.length_cons, List.getD_cons_succ]
    exact ih

theorem getD_dropLast {α : Type} (L : List α) (i : Nat) (d : α)
    (h : i + 1 < L.length) : L.dropLast.getD i d = L.getD i d := by
  induction L generalizing i with
  | nil => simp
  | cons a t ih =>
    cases t with
    | nil => simp at h
    | cons b t' =>
      cases i with
      | zero => simp
      | succ i =>
        simp only [List.dropLast_cons₂, List.getD_cons_succ]
        exact ih i (by simpa using h)

theorem eq_dropLast_concat {α : Type} (L : List α) (d : α) (h : L ≠ []) :
    L = L.dropLast ++ [L.getD (L.length - 1) d] := by
  induction L with
  | nil => exact absurd rfl h
  | cons a t ih =>
    cases t with
    | nil => simp
    | cons b t' =>
      have hne : b :: t' ≠ [] := by simp
      have h2 := ih hne
      simp only [List.dropLast_cons₂, List.length_cons, List.getD_cons_succ]
      rw [List.cons_append]
      have harith : t'.length + 1 + 1 - 1 = t'.length + 1 := by omega
      rw [harith]
      have harith2 : (b :: t').length - 1 = t'.length := by simp
      rw [harith2] at h2
      exact congrArg (a :: ·) h2

/-- Invariant of the in-memory log manager against the chunk decomposition of
the records appended so far: every flushed block encodes its chunk, the
current page encodes the last chunk. -/
def MgrInv (P : Nat) (m : LogMgr P) (chunks : List (List (List Nat))) : Prop :=
  chunks ≠ [] ∧
  m.block_num + 1 = chunks.length ∧
  m.file.length = chunks.length ∧
  (∀ i, i + 1 < chunks.length →
    m.file.getD i (pageNew P) = encodePage P (chunks.getD i [])) ∧
  m.page = encodePage P (chunks.getD (chunks.length - 1) []) ∧
  (∀ c ∈ chunks, chunkEnd c ≤ P)

theorem mgrInv_init (P : Nat) (hP : 4 ≤ P) : MgrInv P (LogMgr.init P) [[]] := by
  refine ⟨by simp, rfl, rfl, by intro i hi; simp at hi, ?_, ?_⟩
  · show setFrontier (pageNew P) 4 = _
    rw [encodePage_init]
    rfl
  · intro c hc
    simp at hc
    subst hc
    rw [chunkEnd_nil]
    exact hP

theorem mgrInv_flush_all (P : Nat) (m : LogMgr P)
    (chunks : List (List (List Nat))) (hinv : MgrInv P m chunks) :
    MgrInv P m.flush_all chunks := by
  obtain ⟨hne, hblk, hlen, hfile, hpage, hbound⟩ := hinv
  refine ⟨hne, hblk, by simp [LogMgr.flush_all, hlen], ?_, hpage, hbound⟩
  intro i hi
  show (m.file.set m.block_num m.page).getD i (pageNew P) = _
  rw [getD_set_ne m.file m.block_num i m.page (pageNew P) (by omega)]
  exact hfile i hi

/-- The frontier of the page of a manager satisfying the invariant. -/
theorem mgrInv_frontier (P : Nat) (h32 : P < 256 ^ 4) (m : LogMgr P)
    (chunks : List (List (List Nat))) (hinv : MgrInv P m chunks) :
    getFrontier m.page = chunkEnd (chunks.getD (chunks.length - 1) []) := by
  obtain ⟨hne, hblk, hlen, hfile, hpage, hbound⟩ := hinv
  have hmem : chunks.getD (chunks.length - 1) [] ∈ chunks :=
    getD_mem_of_lt chunks (chunks.length - 1) []
      (by cases chunks with | nil => exact absurd rfl hne | cons a t => simp)
  have hle : chunkEnd (chunks.getD (chunks.length - 1) []) ≤ P := hbound _ hmem
  rw [hpage]
  exact getFrontier_encodePage P _ (by omega)

/-- The block-selection step of `append` (the `if` choosing between the
current page and a freshly appended block). -/
def appendM1 (P : Nat) (m : LogMgr P) (r : List Nat) : LogMgr P :=
  if getFrontier m.page + r.length + 4 ≥ P then m.flush_all.append_block else m

/-- `append` as block selection followed by the three page writes. -/
theorem append_eq (P : Nat) (m : LogMgr P) (r : List Nat) :
    (m.append r).1 =
      { appendM1 P m r with
        page := setFrontier
          (writeUIntP 4 r.length
            (writeBytesP (appendM1 P m r).page r
              (getFrontier (appendM1 P m r).page))
            (getFrontier (appendM1 P m r).page + r.length))
          (getFrontier (appendM1 P m r).page + r.length + 4),
        latest_lsn := (appendM1 P m r).latest_lsn + 1 } := rfl

/-- `append` in the record-fits case: the last chunk is extended. -/
theorem mgrInv_append_stay (P : Nat) (h32 : P < 256 ^ 4) (m : LogMgr P)
    (chunks : List (List (List Nat))) (r : List Nat)
    (hinv : MgrInv P m chunks)
    (hc : chunkEnd (chunks.getD (chunks.length - 1) []) + r.length + 4 < P) :
    MgrInv P (m.append r).1
      (chunks.dropLast ++ [chunks.getD (chunks.length - 1) [] ++ [r]]) := by
  have hfr := mgrInv_frontier P h32 m chunks hinv
  obtain ⟨hne, hblk, hlen, hfile, hpage, hbound⟩ := hinv
  have hlenpos : 1 ≤ chunks.length := by
    cases chunks with | nil => exact absurd rfl hne | cons a t => simp
  have hm1 : appendM1 P m r = m := by
    unfold appendM1
    rw [hfr]
    exact if_neg (by omega)
  have hres : (m.append r).1 = { m with
      page := encodePage P (chunks.getD (chunks.length - 1) [] ++ [r]),
      latest_lsn := m.latest_lsn + 1 } := by
    rw [append_eq, hm1, hfr, hpage]
    rw [append_step_encode P _ r (by omega)]
  rw [hres]
  have hlen' : (chunks.dropLast ++ [chunks.getD (chunks.length - 1) [] ++ [r]]).length
      = chunks.length := by
    simp [List.length_dropLast]
    omega
  refine ⟨by simp, ?_, ?_, ?_, ?_, ?_⟩
  · rw [hlen']
    exact hblk
  · rw [hlen']
    exact hlen
  · intro i hi
    rw [hlen'] at hi
    rw [getD_append_left chunks.dropLast _ i []
        (by rw [List.length_dropLast]; omega)]
    rw [getD_dropLast chunks i [] (by omega)]
    exact hfile i hi
  · rw [hlen']
    rw [show chunks.length - 1 = chunks.dropLast.length from by
      rw [List.length_dropLast]]
    rw [getD_append_len]
  · intro c hc2
    rcases List.mem_append.mp hc2 with h | h
    · exact hbound c (List.dropLast_subset chunks h)
    · rw [List.mem_singleton] at h
      subst h
      rw [chunkEnd_concat]
      omega

/-- `append` in the new-block case: the current page is flushed and a fresh
block receives `[r]` as a new chunk. -/
theorem mgrInv_append_new (P : Nat) (h32 : P < 256 ^ 4) (m : LogMgr P)
    (chunks : List (List (List Nat))) (r : List Nat)
    (hinv : MgrInv P m chunks)
    (hc : chunkEnd (chunks.getD (chunks.length - 1) []) + r.length + 4 ≥ P)
    (hfit : r.length + 8 ≤ P) :
    MgrInv P (m.append r).1 (chunks ++ [[r]]) := by
  have hfr := mgrInv_frontier P h32 m chunks hinv
  obtain ⟨hne, hblk, hlen, hfile, hpage, hbound⟩ := hinv
  have hlenpos : 1 ≤ chunks.length := by
    cases chunks with | nil => exact absurd rfl hne | cons a t => simp
  have hm1 : appendM1 P m r = m.flush_all.append_block := by
    unfold appendM1
    rw [hfr]
    exact if_pos (by omega)
  have hpage3 : (m.flush_all.append_block).page = encodePage P [] := by
    show setFrontier (pageNew P) 4 = encodePage P []
    exact encodePage_init P
  have hfr3 : getFrontier (m.flush_all.append_block).page = chunkEnd [] := by
    show getFrontier (setFrontier (pageNew P) 4) = chunkEnd []
    rw [getFrontier_fresh]
    exact chunkEnd_nil.symm
  have hres : (m.append r).1 = {
      file := (m.file.set m.block_num m.page) ++ [setFrontier (pageNew P) 4],
      page := encodePage P [r],
      block_num := (m.file.set m.block_num m.page).length,
      latest_lsn := m.latest_lsn + 1,
      last_saved_lsn := m.latest_lsn } := by
    rw [append_eq, hm1, hfr3, hpage3]
    rw [append_step_encode P [] r (by rw [chunkEnd_nil]; omega)]
    simp only [List.nil_append]
    rfl
  rw [hres]
  have hsetlen : (m.file.set m.block_num m.page).length = chunks.length := by
    rw [List.length_set]
    exact hlen
  refine ⟨by simp, ?_, ?_, ?_, ?_, ?_⟩
  · simp only [List.length_append, List.length_cons, List.length_nil]
    rw [hsetlen]
  · simp only [List.length_append, List.length_cons, List.length_nil]
    rw [hsetlen]
  · intro i hi
    simp only [List.length_append, List.length_cons, List.length_nil] at hi
    have hilt : i < chunks.length := by omega
    show ((m.file.set m.block_num m.page) ++ [setFrontier (pageNew P) 4]).getD i
        (pageNew P) = encodePage P ((chunks ++ [[r]]).getD i [])
    rw [getD_append_left _ _ i (pageNew P) (by rw [hsetlen]; exact hilt)]
    rw [getD_append_left chunks _ i [] hilt]
    by_cases hib : i = m.block_num
    · subst hib
      rw [getD_set_eq m.file m.block_num m.page (pageNew P) (by omega)]
      rw [hpage]
      rw [show m.block_num = chunks.length - 1 from by omega]
    · rw [getD_set_ne m.file m.block_num i m.page (pageNew P) (Ne.symm hib)]
      exact hfile i (by omega)
  · simp only [List.length_append, List.length_cons, List.length_nil]
    rw [show chunks.length + 1 - 1 = chunks.length from by omega]
    rw [getD_append_len]
  · intro c hc2
    rcases List.mem_append.mp hc2 with h | h
    · exact hbound c h
    · rw [List.mem_singleton] at h
      subst h
      rw [show ([r] : List (List Nat)) = [] ++ [r] from rfl, chunkEnd_concat,
        chunkEnd_nil]
      omega

/-- A single `append` preserves the invariant; the chunk decomposition gains
`r` and keeps its closed prefix. -/
theorem mgrInv_append_ex (P : Nat) (h32 : P < 256 ^ 4) (m : LogMgr P)
    (chunks : List (List (List Nat))) (r : List Nat)
    (hinv : MgrInv P m chunks) (hne : ∀ c ∈ chunks, c ≠ [])
    (hfit : r.length + 8 ≤ P) :
    ∃ chunks', MgrInv P (m.append r).1 chunks' ∧
      (∀ c ∈ chunks', c ≠ []) ∧
      chunks'.flatten = chunks.flatten ++ [r] ∧
      chunks.length ≤ chunks'.length ∧
      (∀ i, i + 1 < chunks.length → chunks'.getD i [] = chunks.getD i []) := by
  have hne0 : chunks ≠ [] := hinv.1
  have hlenpos : 1 ≤ chunks.length := by
    cases chunks with | nil => exact absurd rfl hne0 | cons a t => simp
  by_cases hc : chunkEnd (chunks.getD (chunks.length - 1) []) + r.length + 4 ≥ P
  · refine ⟨chunks ++ [[r]], mgrInv_append_new P h32 m chunks r hinv hc hfit,
      ?_, ?_, ?_, ?_⟩
    · intro c hcm
      rcases List.mem_append.mp hcm with h | h
      · exact hne c h
      · rw [List.mem_singleton] at h
        subst h
        simp
    · rw [List.flatten_append]
      simp
    · simp
    · intro i hi
      exact getD_append_left chunks _ i [] (by omega)
  · refine ⟨chunks.dropLast ++ [chunks.getD (chunks.length - 1) [] ++ [r]],
      mgrInv_append_stay P h32 m chunks r hinv (by omega), ?_, ?_, ?_, ?_⟩
    · intro c hcm
      rcases List.mem_append.mp hcm with h | h
      · exact hne c (List.dropLast_subset chunks h)
      · rw [List.mem_singleton] at h
        subst h
        simp
    · rw [List.flatten_append]
      conv_rhs => rw [eq_dropLast_concat chunks [] hne0]
      rw [List.flatten_append]
      simp [List.append_assoc]
    · simp [List.length_dropLast]
      omega
    · intro i hi
      rw [getD_append_left chunks.dropLast _ i []
          (by rw [List.length_dropLast]; omega)]
      exact getD_dropLast chunks i [] (by omega)

/-- `appendAll` preserves the invariant, appending its records to the
flattened chunks; chunk indices below the starting length are untouched. -/
theorem mgrInv_appendAll (P : Nat) (h32 : P < 256 ^ 4) :
    ∀ (rs : List (List Nat)) (m : LogMgr P)
      (chunks : List (List (List Nat))),
      MgrInv P m chunks → (∀ c ∈ chunks, c ≠ []) →
      (∀ r ∈ rs, r.length + 8 ≤ P) →
      ∃ chunks', MgrInv P (m.appendAll rs) chunks' ∧
        (∀ c ∈ chunks', c ≠ []) ∧
        chunks'.flatten = chunks.flatten ++ rs ∧
        chunks.length ≤ chunks'.length ∧
        (∀ i, i + 1 < chunks.length → chunks'.getD i [] = chunks.getD i []) := by
  intro rs
  induction rs with
  | nil =>
    intro m chunks hinv hne _hfit
    exact ⟨chunks, hinv, hne, by simp, le_rfl, fun i _ => rfl⟩
  | cons r rest ih =>
    intro m chunks hinv hne hfit
    obtain ⟨c1, hinv1, hne1, hflat1, hlen1, hpre1⟩ :=
      mgrInv_append_ex P h32 m chunks r hinv hne (hfit r (by simp))
    obtain ⟨c2, hinv2, hne2, hflat2, hlen2, hpre2⟩ :=
      ih (m.append r).1 c1 hinv1 hne1 (fun r' hr' => hfit r' (by simp [hr']))
    refine ⟨c2, hinv2, hne2, ?_, le_trans hlen1 hlen2, ?_⟩
    · rw [hflat2, hflat1]
      simp
    · intro i hi
      rw [hpre2 i (by omega), hpre1 i hi]

/-- The first append on a fresh manager (provided it fits in block 0). -/
theorem mgrInv_init_append (P : Nat) (h32 : P < 256 ^ 4) (hP : 4 ≤ P)
    (r : List Nat) (hfit : r.length + 9 ≤ P) :
    MgrInv P (((LogMgr.init P).append r).1) [[r]] := by
  have h := mgrInv_append_stay P h32 (LogMgr.init P) [[]] r (mgrInv_init P hP)
    (by simp [chunkEnd_nil]; omega)
  have hch : (([[]] : List (List (List Nat))).dropLast
      ++ [([[]] : List (List (List Nat))).getD
            (([[]] : List (List (List Nat))).length - 1) [] ++ [r]])
      = [[r]] := by simp
  rw [hch] at h
  exact h

/-- Taking a snapshot of an invariant-satisfying manager yields a state from
which iteration is governed by `SnapInv`, with all appended records
remaining. -/
theorem snapInv_of_mgrInv (P : Nat) (h32 : P < 256 ^ 4) (m : LogMgr P)
    (chunks : List (List (List Nat))) (hinv : MgrInv P m chunks)
    (hne : ∀ i, i + 1 < chunks.length → chunks.getD i [] ≠ []) :
    SnapInv P (m.snapshot.1).file (m.snapshot.2).block_num (m.snapshot.2).page
      (m.snapshot.2).pos chunks.flatten := by
  have hfr := mgrInv_frontier P h32 m chunks hinv
  obtain ⟨hne0, hblk, hlen, hfile, hpage, hbound⟩ := hinv
  refine ⟨chunks, chunks.getD (chunks.length - 1) [], [], hne0, hblk, ?_,
    ?_, by simp, hfr, ?_, hbound, hne⟩
  · intro i hi
    show (m.file.set m.block_num m.page).getD i (pageNew P) = _
    rw [getD_set_ne m.file m.block_num i m.page (pageNew P) (by omega)]
    exact hfile i hi
  · show (m.file.set m.block_num m.page).getD m.block_num (pageNew P) = _
    rw [getD_set_eq m.file m.block_num m.page (pageNew P) (by omega)]
    exact hpage
  · rw [show chunks.take (chunks.length - 1) = chunks.dropLast from
      (List.dropLast_eq_take chunks).symm]
    conv_lhs => rw [eq_dropLast_concat chunks [] hne0]
    rw [List.flatten_append]
    simp

/-- `consumeS` keeps the block number. -/
theorem consumeS_block_eq (P : Nat) (s : SnapSt) (r : List Nat) (s' : SnapSt)
    (h : consumeS P s = SnapStep.item r s') : s'.block_num = s.block_num := by
  unfold consumeS at h
  by_cases h1 : s.pos < 4
  · rw [if_pos h1] at h
    simp at h
  rw [if_neg h1] at h
  by_cases h2 : P < s.pos
  · rw [if_pos h2] at h
    simp at h
  rw [if_neg h2] at h
  by_cases h3 : s.pos - 4 < readUIntP 4 s.page (s.pos - 4)
  · rw [if_pos h3] at h
    simp at h
  rw [if_neg h3] at h
  simp only [SnapStep.item.injEq] at h
  rw [← h.2]

/-- A yielded step never moves to a later block. -/
theorem nextS_block_le (P : Nat) (file : List (List Nat)) (s : SnapSt)
    (r : List Nat) (s' : SnapSt) (h : nextS P file s = SnapStep.item r s') :
    s'.block_num ≤ s.block_num := by
  unfold nextS at h
  by_cases h1 : s.pos < 4
  · rw [if_pos h1] at h
    simp at h
  rw [if_neg h1] at h
  by_cases h2 : s.pos = 4
  · rw [if_pos h2] at h
    rcases hblk : s.block_num with _ | b
    · rw [hblk] at h
      simp at h
    · rw [hblk] at h
      have hb := consumeS_block_eq P _ r s' h
      have hb2 : s'.block_num = b := hb
      omega
  · rw [if_neg h2] at h
    rw [consumeS_block_eq P s r s' h]

/-- Iteration only reads file blocks below the snapshot's starting block, so
it is unaffected by changes at or above it (e.g. by later appends). -/
theorem collectS_file_agree (P : Nat) (file file' : List (List Nat)) :
    ∀ (fuel : Nat) (s : SnapSt),
      (∀ i, i < s.block_num →
        file.getD i (pageNew P) = file'.getD i (pageNew P)) →
      collectS P file fuel s = collectS P file' fuel s := by
  intro fuel
  induction fuel with
  | zero =>
    intro s _h
    rfl
  | succ fuel ih =>
    intro s h
    have hnext : nextS P file s = nextS P file' s := by
      unfold nextS
      by_cases h1 : s.pos < 4
      · rw [if_pos h1, if_pos h1]
      · rw [if_neg h1, if_neg h1]
        by_cases h2 : s.pos = 4
        · rw [if_pos h2, if_pos h2]
          rcases hblk : s.block_num with _ | b
          · rfl
          · show consumeS P ⟨b, file.getD b (pageNew P),
                getFrontier (file.getD b (pageNew P))⟩
              = consumeS P ⟨b, file'.getD b (pageNew P),
                getFrontier (file'.getD b (pageNew P))⟩
            rw [h b (by omega)]
        · rw [if_neg h2, if_neg h2]
    rw [collectS_succ, collectS_succ, hnext]
    cases hres : nextS P file' s with
    | fault => rfl
    | finished => rfl
    | item r s' =>
      have hble : s'.block_num ≤ s.block_num := nextS_block_le P file' s r s' hres
      show Option.map (fun l => r :: l) (collectS P file fuel s')
        = Option.map (fun l => r :: l) (collectS P file' fuel s')
      rw [ih s' (fun i hi => h i (by omega))]

/-- C4 amended: for every appended sequence of records whose first record
leaves room for its trailing length word inside block 0 (`|r₀| + 9 ≤ P`; for
longer first records block 0 is left empty and the iterator faults on it, see
the counterexample) and whose records all fit a page (`|r| + 8 ≤ P`), the
snapshot iterator yields exactly `rₙ, …, r₁` and then ends; a snapshot taken
before further appends still yields exactly that sequence afterwards; the
empty sequence yields an immediately-ending iterator. -/
theorem snapshot_reverse_amended (P : Nat) (h32 : P < 256 ^ 4) (hP : 4 ≤ P)
    (r0 : List Nat) (rest rs2 : List (List Nat))
    (h0 : r0.length + 9 ≤ P)
    (hrest : ∀ r ∈ rest, r.length + 8 ≤ P)
    (h2 : ∀ r ∈ rs2, r.length + 8 ≤ P) :
    collectS P (((LogMgr.init P).appendAll (r0 :: rest)).snapshot.1).file
        ((r0 :: rest).length + 1)
        (((LogMgr.init P).appendAll (r0 :: rest)).snapshot.2)
      = some (r0 :: rest).reverse ∧
    collectS P
        ((((LogMgr.init P).appendAll (r0 :: rest)).snapshot.1).appendAll
          rs2).file
        ((r0 :: rest).length + 1)
        (((LogMgr.init P).appendAll (r0 :: rest)).snapshot.2)
      = some (r0 :: rest).reverse ∧
    collectS P ((LogMgr.init P).snapshot.1).file 1 ((LogMgr.init P).snapshot.2)
      = some [] := by
  have hin0 : MgrInv P (((LogMgr.init P).append r0).1) [[r0]] :=
    mgrInv_init_append P h32 hP r0 h0
  have hne0 : ∀ c ∈ ([[r0]] : List (List (List Nat))), c ≠ [] := by
    intro c hc
    rw [List.mem_singleton] at hc
    subst hc
    simp
  obtain ⟨cA, hinvA, hneA, hflatA, _hlenA, _hpreA⟩ :=
    mgrInv_appendAll P h32 rest (((LogMgr.init P).append r0).1) [[r0]] hin0
      hne0 hrest
  have happ : (LogMgr.init P).appendAll (r0 :: rest)
      = (((LogMgr.init P).append r0).1).appendAll rest := rfl
  have hflatA' : cA.flatten = r0 :: rest := by
    rw [hflatA]
    simp
  have hneA' : ∀ i, i + 1 < cA.length → cA.getD i [] ≠ [] :=
    fun i hi => hneA _ (getD_mem_of_lt cA i [] (by omega))
  have hsnap := snapInv_of_mgrInv P h32
    ((((LogMgr.init P).append r0).1).appendAll rest) cA hinvA hneA'
  have hlenr : cA.flatten.length = (r0 :: rest).length := by rw [hflatA']
  have hcol := collect_of_snapInv P h32
      (((((LogMgr.init P).append r0).1).appendAll rest).snapshot.1).file
      (r0 :: rest).length
      (((((LogMgr.init P).append r0).1).appendAll rest).snapshot.2).block_num
      (((((LogMgr.init P).append r0).1).appendAll rest).snapshot.2).page
      (((((LogMgr.init P).append r0).1).appendAll rest).snapshot.2).pos
      cA.flatten (by rw [hflatA']) hsnap
  rw [hflatA'] at hcol
  refine ⟨?_, ?_, ?_⟩
  · rw [happ]
    exact hcol
  · rw [happ]
    have hinvflush : MgrInv P
        (((((LogMgr.init P).append r0).1).appendAll rest).snapshot.1) cA :=
      mgrInv_flush_all P ((((LogMgr.init P).append r0).1).appendAll rest) cA
        hinvA
    obtain ⟨cB, hinvB, _hneB, _hflatB, hlenB, hpreB⟩ :=
      mgrInv_appendAll P h32 rs2
        (((((LogMgr.init P).append r0).1).appendAll rest).snapshot.1) cA
        hinvflush hneA h2
    have hagree : ∀ i,
        i < (((((LogMgr.init P).append r0).1).appendAll rest).snapshot.2).block_num →
        ((((((LogMgr.init P).append r0).1).appendAll rest).snapshot.1).appendAll
          rs2).file.getD i (pageNew P)
          = (((((LogMgr.init P).append r0).1).appendAll
              rest).snapshot.1).file.getD i (pageNew P) := by
      intro i hi
      have hblkA :
          (((((LogMgr.init P).append r0).1).appendAll rest).snapshot.2).block_num
            + 1 = cA.length := hinvflush.2.1
      have hi1 : i + 1 < cA.length := by omega
      rw [hinvB.2.2.2.1 i (by omega), hpreB i hi1,
        ← hinvflush.2.2.2.1 i hi1]
    rw [collectS_file_agree P _ _ ((r0 :: rest).length + 1) _ hagree]
    exact hcol
  · have hinvI : MgrInv P (LogMgr.init P) [[]] := mgrInv_init P hP
    have hsnapI := snapInv_of_mgrInv P h32 (LogMgr.init P) [[]] hinvI
      (by intro i hi; simp at hi)
    have hcolI := collect_of_snapInv P h32 ((LogMgr.init P).snapshot.1).file 0
      ((LogMgr.init P).snapshot.2).block_num
      ((LogMgr.init P).snapshot.2).page
      ((LogMgr.init P).snapshot.2).pos
      ([[]] : List (List (List Nat))).flatten (by simp) hsnapI
    have hfl : ([[]] : List (List (List Nat))).flatten = [] := rfl
    rw [hfl] at hcolI
    exact hcolI

/-- Witness for C4 at `P = 16` with records `[1]`, `[2,3]` and a later
append `[9]`. -/
theorem snapshot_reverse_amended_witness :
    collectS 16 (((LogMgr.init 16).appendAll [[1], [2, 3]]).snapshot.1).file 3
        (((LogMgr.init 16).appendAll [[1], [2, 3]]).snapshot.2)
      = some [[2, 3], [1]] ∧
    collectS 16
        ((((LogMgr.init 16).appendAll [[1], [2, 3]]).snapshot.1).appendAll
          [[9]]).file 3
        (((LogMgr.init 16).appendAll [[1], [2, 3]]).snapshot.2)
      = some [[2, 3], [1]] ∧
    collectS 16 ((LogMgr.init 16).snapshot.1).file 1
        ((LogMgr.init 16).snapshot.2) = some [] :=
  snapshot_reverse_amended 16 (by norm_num) (by norm_num) [1] [[2, 3]] [[9]]
    (by norm_num) (by decide) (by decide)

/-! ## Buffer, buffer pool flush, and commit

Sources: `backend/src/buffer.rs` (`Buffer`), `storage/src/buffer_manager.rs`
(`BufferManager::flush_all`), `backend/src/transaction.rs` (`Tx::commit`).
The data disk is an association list from block id `(file_id, block_number)`
to page bytes (`FileManager::write_block` / `get_block`). -/

abbrev DiskM := List ((String × Nat) × List Nat)

/-- `FileManager::write_block` on the association-list disk. -/
def writeBlockD : DiskM → (String × Nat) → List Nat → DiskM
  | [], blk, page => [(blk, page)]
  | (k, v) :: rest, blk, page =>
    if k = blk then (k, page) :: rest else (k, v) :: writeBlockD rest blk page

/-- `FileManager::get_block`: read the block if present, otherwise leave the
destination page unchanged. -/
def getBlockD : DiskM → (String × Nat) → List Nat → List Nat
  | [], _, page => page
  | (k, v) :: rest, blk, page => if k = blk then v else getBlockD rest blk page

structure BufferS where
  blk : Option (String × Nat)
  page : List Nat
  pin_count : Nat
  tx_num : Int
  lsn : Int
  deriving DecidableEq, Repr

/-- `Buffer::new` — the source initialises `tx_num` to 0 (with the comment
"TODO: this will be changed back to -1 in the future"), not to -1. -/
def BufferS.new (P : Nat) : BufferS :=
  { blk := none, page := pageNew P, pin_count := 0, tx_num := 0, lsn := -1 }

/-- `Buffer::set_modified`. -/
def BufferS.set_modified (b : BufferS) (tx lsn : Int) : BufferS :=
  { b with tx_num := tx, lsn := lsn }

/-- `Buffer::is_pinned`. -/
def BufferS.is_pinned (b : BufferS) : Bool := b.pin_count > 0

/-- The branch condition under which `Buffer::flush` performs a disk write:
a block is assigned and `tx_num >= 0`. -/
def BufferS.flushWrites (b : BufferS) : Bool :=
  b.blk.isSome && decide (b.tx_num ≥ 0)

/-- `Buffer::flush`: when `flushWrites`, first `log_manager.flush(lsn)`, then
write the page to the data file.  The buffer itself is unchanged — in
particular `tx_num` is NOT reset to -1 (that line is commented out in the
source). -/
def BufferS.flush (P : Nat) (b : BufferS) (lm : LogMgr P) (disk : DiskM) :
    LogMgr P × DiskM :=
  match b.blk with
  | some blk =>
    if b.tx_num ≥ 0 then (lm.flush b.lsn, writeBlockD disk blk b.page)
    else (lm, disk)
  | none => (lm, disk)

/-- `Buffer::assign_to_block`: flush current contents, load the new block,
reset the pin count (but not `tx_num`). -/
def BufferS.assign_to_block (P : Nat) (b : BufferS) (blk : String × Nat)
    (lm : LogMgr P) (disk : DiskM) : BufferS × LogMgr P × DiskM :=
  let fd := b.flush P lm disk
  ({ b with
      page := getBlockD fd.2 blk b.page,
      blk := some blk,
      pin_count := 0 }, fd)

/-- `BufferManager::flush_all(tx_num)`: flush every buffer whose `tx_num`
matches (`storage/src/buffer_manager.rs:175`). -/
def flushAllB (P : Nat) (bufs : List BufferS) (tx : Int) (lm : LogMgr P)
    (disk : DiskM) : LogMgr P × DiskM :=
  bufs.foldl
    (fun acc b => if b.tx_num = tx then BufferS.flush P b acc.1 acc.2 else acc)
    (lm, disk)

/-- The state a transaction acts on: the shared log manager, the buffer pool,
the data disk, the blocks this transaction has locked
(`ConcurrencyManager.locks`), and its pinned blocks (`BufferList.pins`). -/
structure DbState (P : Nat) where
  log : LogMgr P
  bufs : List BufferS
  disk : DiskM
  locks : List (String × Nat)
  pins : List (String × Nat)
  deriving DecidableEq, Repr

/-- Modelled after bincode's default encoding of `LogRecord::Commit { tx_num }`
(u32 little-endian variant tag 2, then the i64 tx number, little-endian
two's-complement). -/
def encodeCommit (tx : Int) : List Nat :=
  encLE 4 2 ++ encLE 8 (tx % (2 ^ 64)).toNat

/-- `Tx::commit`: flush all buffers modified by this transaction, append a
`Commit{tx}` record to the log, release all concurrency locks, unpin all
buffers.  The source never calls `log_mgr.flush` here (contrast `rollback`,
which goes through `append_to_log_and_flush`). -/
def Tx.commit (P : Nat) (s : DbState P) (tx : Int) : DbState P :=
  let fd := flushAllB P s.bufs tx s.log s.disk
  let ap := fd.1.append (encodeCommit tx)
  { s with log := ap.1, disk := fd.2, locks := [], pins := [] }

/-- A concrete pre-commit state at `P = 32`: one logged write (record bytes
`[5, 5]`, LSN 1) sits in the in-memory log page, and the buffer holding block
`("t", 0)` was modified by transaction 0 with that LSN. -/
def commitDemoState : DbState 32 :=
  { log := ((LogMgr.init 32).append [5, 5]).1,
    bufs := [{ blk := some ("t", 0), page := writeSIntP 4 7 (pageNew 32) 0,
               pin_count := 1, tx_num := 0, lsn := 1 }],
    disk := [(("t", 0), pageNew 32)],
    locks := [("t", 0)],
    pins := [("t", 0)] }

/-- C1: `commit()` does flush the transaction's buffers to the data file,
appends `Commit{tx}` (LSN 2 here), releases locks and unpins — but it never
flushes the log: after `commit()` returns, `last_saved_lsn` is still 0 and
the on-disk log file is still the empty initial page, so the `Commit` record
(and even the preceding update record) is NOT durable, contradicting the
claim. -/
theorem commit_log_not_durable :
    (Tx.commit 32 commitDemoState 0).log.latest_lsn = 2 ∧
    (Tx.commit 32 commitDemoState 0).log.last_saved_lsn = 0 ∧
    (Tx.commit 32 commitDemoState 0).log.file = [setFrontier (pageNew 32) 4] ∧
    (Tx.commit 32 commitDemoState 0).disk
      = [(("t", 0), writeSIntP 4 7 (pageNew 32) 0)] ∧
    (Tx.commit 32 commitDemoState 0).locks = [] ∧
    (Tx.commit 32 commitDemoState 0).pins = [] := by
  decide

/-- C7: a freshly created buffer has `tx_num = 0`, not `< 0`, although it has
never been modified; once assigned to a block (still never modified) the
`flush()` branch condition holds and `flush()` writes the page to disk — the
claimed invariant "`tx_num >= 0` iff modified since last flush" fails in both
directions (flushing also never resets `tx_num`). -/
theorem buffer_fresh_tx_num_not_negative :
    (BufferS.new 16).tx_num = 0 ∧
    ¬ (BufferS.new 16).tx_num < 0 ∧
    (((BufferS.new 16).assign_to_block 16 ("t", 0) (LogMgr.init 16)
        [(("t", 0), pageNew 16)]).1).tx_num = 0 ∧
    BufferS.flushWrites (((BufferS.new 16).assign_to_block 16 ("t", 0)
        (LogMgr.init 16) [(("t", 0), pageNew 16)]).1) = true ∧
    (BufferS.flush 16 (((BufferS.new 16).assign_to_block 16 ("t", 0)
        (LogMgr.init 16) [(("t", 0), pageNew 16)]).1) (LogMgr.init 16) []).2
      = [(("t", 0), pageNew 16)] := by
  decide

/-! ### Further byte-level lemmas (for undo/rollback reasoning) -/

theorem readBytesP_length (p : List Nat) (off len : Nat)
    (h : off + len ≤ p.length) : (readBytesP p off len).length = len := by
  unfold readBytesP
  simp
  omega

theorem readBytesP_split (p : List Nat) (off a b : Nat) :
    readBytesP p off (a + b) = readBytesP p off a ++ readBytesP p (off + a) b := by
  unfold readBytesP
  rw [List.take_add, List.drop_drop]

theorem readBytesP_bytes_lt (p : List Nat) (off len : Nat)
    (h : ∀ x ∈ p, x < 256) : ∀ x ∈ readBytesP p off len, x < 256 := by
  intro x hx
  unfold readBytesP at hx
  exact h x (List.mem_of_mem_drop (List.mem_of_mem_take hx))

/-- Writing over a same-length previous write overwrites it entirely. -/
theorem writeBytesP_writeBytesP_same (p d1 d2 : List Nat) (off : Nat)
    (hlen : d1.length = d2.length) (hb : off + d1.length ≤ p.length) :
    writeBytesP (writeBytesP p d1 off) d2 off = writeBytesP p d2 off := by
  unfold writeBytesP
  have htake : (p.take off ++ d1 ++ p.drop (off + d1.length)).take off
      = p.take off := by
    rw [List.append_assoc, List.take_append_eq_append_take]
    have h1 : (p.take off).length = off := by simp; omega
    rw [List.take_take]
    have h2 : min off off = off := by omega
    rw [h2]
    have h3 : off - (p.take off).length = 0 := by omega
    rw [h3]
    simp
  have hdrop : (p.take off ++ d1 ++ p.drop (off + d1.length)).drop
        (off + d2.length) = p.drop (off + d2.length) := by
    have h1 : (p.take off ++ d1).length = off + d1.length := by
      simp
      omega
    have h2 := List.drop_left (p.take off ++ d1) (p.drop (off + d1.length))
    rw [h1] at h2
    rw [← hlen, h2]
  rw [htake, hdrop]

theorem take_append_readBytesP (p : List Nat) (off len : Nat) :
    p.take off ++ readBytesP p off len = p.take (off + len) := by
  unfold readBytesP
  rw [List.take_add]

/-- Writing back the bytes just read is a no-op. -/
theorem writeBytesP_readBytesP_self (p : List Nat) (off len : Nat) :
    writeBytesP p (readBytesP p off len) off = p := by
  unfold writeBytesP
  rw [take_append_readBytesP]
  by_cases h : off + len ≤ p.length
  · rw [readBytesP_length p off len h, List.take_append_drop]
  · have h1 : (readBytesP p off len).length = p.length - off := by
      unfold readBytesP
      simp
      omega
    rw [h1]
    have h2 : p.drop (off + (p.length - off)) = [] :=
      List.drop_eq_nil_of_le (by omega)
    have h3 : p.take (off + len) = p := List.take_of_length_le (by omega)
    rw [h2, h3, List.append_nil]

/-! ## Log records, typed transaction writes, and rollback

Sources: `backend/src/log_record.rs` (`LogRecord`, `LogRecord::undo`) and
`backend/src/transaction.rs` (`Tx::set_int`, `Tx::set_string`,
`Tx::log_set_int`, `Tx::log_set_string`, `Tx::rollback`).  The pages
reachable through the buffer pool are modelled as a function from block id to
page bytes; the log as the list of `LogRecord`s appended so far (the
byte-level reverse iteration of `snapshot()` is proved separately above). -/

inductive LogRec where
  | checkpoint
  | start (tx_num : Int)
  | commit (tx_num : Int)
  | rollbck (tx_num : Int)
  | setInt (tx_num : Int) (block : String × Nat) (offset : Nat) (val : Int)
  | setString (tx_num : Int) (block : String × Nat) (offset : Nat)
      (val : List Nat)
  deriving DecidableEq, Repr

abbrev StoreM := (String × Nat) → List Nat

def storeWrite (st : StoreM) (blk : String × Nat) (p : List Nat) : StoreM :=
  fun b => if b = blk then p else st b

structure TxState where
  store : StoreM
  log : List LogRec

/-- `Tx::set_int`: when `ok_to_log`, `log_set_int` first appends a `SetInt`
record holding the pre-image (`old_val`), then the new value is written to
the page and the buffer marked modified.  Locking/pinning do not affect the
bytes. -/
def txSetInt (s : TxState) (tx : Int) (blk : String × Nat) (off : Nat)
    (v : Int) (okToLog : Bool) : TxState :=
  let oldVal : Int := readSIntP 4 (s.store blk) off
  { store := storeWrite s.store blk (writeSIntP 4 v (s.store blk) off),
    log := if okToLog then s.log ++ [LogRec.setInt tx blk off oldVal]
           else s.log }

/-- `Tx::set_string`, analogously with the pre-image string. -/
def txSetString (s : TxState) (tx : Int) (blk : String × Nat) (off : Nat)
    (v : List Nat) (okToLog : Bool) : TxState :=
  let oldVal : List Nat := readStrP (s.store blk) off
  { store := storeWrite s.store blk (writeStrP v (s.store blk) off),
    log := if okToLog then s.log ++ [LogRec.setString tx blk off oldVal]
           else s.log }

/-- `LogRecord::undo`: replay the pre-image as a non-logged write
(pin, set with `ok_to_log = false`, unpin); other variants are no-ops. -/
def LogRec.undo (r : LogRec) (s : TxState) (tx : Int) : TxState :=
  match r with
  | .setInt _ blk off v => txSetInt s tx blk off v false
  | .setString _ blk off v => txSetString s tx blk off v false
  | _ => s

/-- The `Start{tx_num} if tx_num == self.tx_num => break` arm of
`Tx::rollback`. -/
def rollbackStop (r : LogRec) (tx : Int) : Bool :=
  match r with
  | .start t => t = tx
  | _ => false

/-- The `SetInt/SetString if tx_num == self.tx_num => undo` arm of
`Tx::rollback`. -/
def rollbackUndoes (r : LogRec) (tx : Int) : Bool :=
  match r with
  | .setInt t _ _ _ => t = tx
  | .setString t _ _ _ => t = tx
  | _ => false

/-- The loop of `Tx::rollback` over the records, newest first. -/
def rollbackWalk (tx : Int) : List LogRec → TxState → TxState
  | [], s => s
  | r :: rest, s =>
    if rollbackStop r tx then s
    else if rollbackUndoes r tx then rollbackWalk tx rest (r.undo s tx)
    else rollbackWalk tx rest s

/-- `Tx::rollback` (the undo pass; the subsequent buffer flush, `Rollback`
record and lock/pin release do not change any page bytes). -/
def txRollback (s : TxState) (tx : Int) : TxState :=
  rollbackWalk tx s.log.reverse s

/-- A sequence of logged `set_int` writes: `(block, offset, value)`. -/
abbrev IntOp := (String × Nat) × Nat × Int

def applyIntOps (tx : Int) (ops : List IntOp) (s : TxState) : TxState :=
  ops.foldl (fun s op => txSetInt s tx op.1 op.2.1 op.2.2 true) s

/-- The store after a sequence of `set_int` writes. -/
def intStore : List IntOp → StoreM → StoreM
  | [], st => st
  | op :: rest, st =>
    intStore rest (storeWrite st op.1 (writeSIntP 4 op.2.2 (st op.1) op.2.1))

/-- The pre-image records a sequence of logged `set_int` writes appends. -/
def intRecs (tx : Int) : List IntOp → StoreM → List LogRec
  | [], _ => []
  | op :: rest, st =>
    LogRec.setInt tx op.1 op.2.1 (readSIntP 4 (st op.1) op.2.1)
      :: intRecs tx rest (storeWrite st op.1 (writeSIntP 4 op.2.2 (st op.1) op.2.1))

theorem applyIntOps_eq (tx : Int) :
    ∀ (ops : List IntOp) (st : StoreM) (log0 : List LogRec),
      applyIntOps tx ops ⟨st, log0⟩
        = ⟨intStore ops st, log0 ++ intRecs tx ops st⟩ := by
  intro ops
  induction ops with
  | nil =>
    intro st log0
    simp [applyIntOps, intStore, intRecs]
  | cons op rest ih =>
    intro st log0
    show applyIntOps tx rest (txSetInt ⟨st, log0⟩ tx op.1 op.2.1 op.2.2 true)
      = _
    rw [show txSetInt ⟨st, log0⟩ tx op.1 op.2.1 op.2.2 true
        = ⟨storeWrite st op.1 (writeSIntP 4 op.2.2 (st op.1) op.2.1),
           log0 ++ [LogRec.setInt tx op.1 op.2.1
             (readSIntP 4 (st op.1) op.2.1)]⟩ from rfl]
    rw [ih]
    simp [intStore, intRecs]

theorem encLE_readSIntP (w : Nat) (page : List Nat) (off : Nat)
    (hb : off + w ≤ page.length) (hlt : ∀ x ∈ page, x < 256) :
    encLE w ((readSIntP w page off) % (2 ^ (8 * w))).toNat
      = readBytesP page off w := by
  have hbs : (readBytesP page off w).length = w := readBytesP_length page off w hb
  have hblt : ∀ x ∈ readBytesP page off w, x < 256 :=
    readBytesP_bytes_lt page off w hlt
  have hn : decLE (readBytesP page off w) < 256 ^ w := by
    have h := decLE_lt (readBytesP page off w) hblt
    rwa [hbs] at h
  have h256 : (256 : Nat) ^ w = 2 ^ (8 * w) := by
    rw [show (256 : Nat) = 2 ^ 8 from by norm_num, ← pow_mul]
  have hn2 : decLE (readBytesP page off w) < 2 ^ (8 * w) := by rwa [h256] at hn
  have key : ((readSIntP w page off) % ((2 : Int) ^ (8 * w))).toNat
      = decLE (readBytesP page off w) := by
    simp only [readSIntP, readUIntP]
    by_cases hc : decLE (readBytesP page off w) < 2 ^ (8 * w - 1)
    · rw [if_pos hc]
      rw [Int.emod_eq_of_lt (by positivity) (by exact_mod_cast hn2)]
      simp
    · rw [if_neg hc]
      rw [Int.sub_emod, Int.emod_self, sub_zero, Int.emod_emod_of_dvd _ dvd_rfl]
      rw [Int.emod_eq_of_lt (by positivity) (by exact_mod_cast hn2)]
      simp
  rw [key]
  calc encLE w (decLE (readBytesP page off w))
      = encLE (readBytesP page off w).length (decLE (readBytesP page off w)) := by
        rw [hbs]
    _ = readBytesP page off w := encLE_decLE _ hblt

/-- Undoing a logged `set_int` restores the four affected bytes exactly:
writing the recorded two's-complement pre-image over the new value yields the
original page. -/
theorem setInt_undo_cancel (page : List Nat) (off : Nat) (v : Int)
    (hb : off + 4 ≤ page.length) (hlt : ∀ x ∈ page, x < 256) :
    writeSIntP 4 (readSIntP 4 page off) (writeSIntP 4 v page off) off = page := by
  unfold writeSIntP
  rw [encLE_readSIntP 4 page off hb hlt]
  rw [writeBytesP_writeBytesP_same page _ _ off
      (by rw [encLE_length, readBytesP_length page off 4 hb])
      (by rw [encLE_length]; exact hb)]
  exact writeBytesP_readBytesP_self page off 4

theorem writeBytesP_bytes_lt (p d : List Nat) (off : Nat)
    (hp : ∀ x ∈ p, x < 256) (hd : ∀ x ∈ d, x < 256) :
    ∀ x ∈ writeBytesP p d off, x < 256 := by
  intro x hx
  unfold writeBytesP at hx
  rcases List.mem_append.mp hx with h | h
  · rcases List.mem_append.mp h with h2 | h2
    · exact hp x (List.mem_of_mem_take h2)
    · exact hd x h2
  · exact hp x (List.mem_of_mem_drop h)

/-- Every block reachable through the buffer pool is a well-formed page:
`P` bytes, each a byte value. -/
def StoreWF (P : Nat) (st : StoreM) : Prop :=
  ∀ blk, (st blk).length = P ∧ ∀ x ∈ st blk, x < 256

theorem storeWF_setInt (P : Nat) (st : StoreM) (blk : String × Nat)
    (off : Nat) (v : Int) (hwf : StoreWF P st) (hb : off + 4 ≤ P) :
    StoreWF P (storeWrite st blk (writeSIntP 4 v (st blk) off)) := by
  intro b
  simp only [storeWrite]
  by_cases hbe : b = blk
  · rw [if_pos hbe]
    refine ⟨?_, ?_⟩
    · unfold writeSIntP
      rw [writeBytesP_length _ _ _ (by rw [encLE_length, (hwf blk).1]; exact hb)]
      exact (hwf blk).1
    · exact writeBytesP_bytes_lt _ _ _ (hwf blk).2 (encLE_bytes_lt _ _)
  · rw [if_neg hbe]
    exact hwf b

theorem rollbackWalk_append (tx : Int) (l1 l2 : List LogRec) (s : TxState)
    (hns : ∀ r ∈ l1, rollbackStop r tx = false) :
    rollbackWalk tx (l1 ++ l2) s = rollbackWalk tx l2 (rollbackWalk tx l1 s) := by
  induction l1 generalizing s with
  | nil => rfl
  | cons r rest ih =>
    have hstop : rollbackStop r tx = false := hns r (by simp)
    cases hu : rollbackUndoes r tx with
    | false =>
      simp only [List.cons_append, rollbackWalk, hstop, hu, Bool.false_eq_true,
        if_false]
      exact ih s (fun r2 hr2 => hns r2 (by simp [hr2]))
    | true =>
      simp only [List.cons_append, rollbackWalk, hstop, hu, Bool.false_eq_true,
        if_false, eq_self_iff_true, if_true]
      exact ih (r.undo s tx) (fun r2 hr2 => hns r2 (by simp [hr2]))

theorem rollbackWalk_inert (tx : Int) (l : List LogRec) (s : TxState)
    (h : ∀ r ∈ l, rollbackUndoes r tx = false) :
    rollbackWalk tx l s = s := by
  induction l generalizing s with
  | nil => rfl
  | cons r rest ih =>
    have hu : rollbackUndoes r tx = false := h r (by simp)
    cases hs : rollbackStop r tx with
    | true =>
      simp only [rollbackWalk, hs, eq_self_iff_true, if_true]
    | false =>
      simp only [rollbackWalk, hs, hu, Bool.false_eq_true, if_false]
      exact ih s (fun r2 hr2 => h r2 (by simp [hr2]))

theorem intRecs_no_stop (tx : Int) (ops : List IntOp) :
    ∀ (st : StoreM), ∀ r ∈ intRecs tx ops st, rollbackStop r tx = false := by
  induction ops with
  | nil =>
    intro st r hr
    simp [intRecs] at hr
  | cons op rest ih =>
    intro st r hr
    simp only [intRecs, List.mem_cons] at hr
    rcases hr with h | h
    · subst h; rfl
    · exact ih _ r h

/-- Walking the pre-image records of a run of logged `set_int`s newest-first
restores the store exactly. -/
theorem rollbackWalk_intRecs (P : Nat) (tx : Int) (ops : List IntOp) :
    ∀ (st : StoreM) (L : List LogRec),
      StoreWF P st →
      (∀ op ∈ ops, op.2.1 + 4 ≤ P) →
      rollbackWalk tx (intRecs tx ops st).reverse ⟨intStore ops st, L⟩
        = ⟨st, L⟩ := by
  induction ops with
  | nil =>
    intro st L _ _
    rfl
  | cons op rest ih =>
    intro st L hwf hops
    obtain ⟨blk, off, v⟩ := op
    have hoff : off + 4 ≤ P := hops (blk, off, v) (by simp)
    set st1 := storeWrite st blk (writeSIntP 4 v (st blk) off) with hst1
    have hwf1 : StoreWF P st1 := storeWF_setInt P st blk off v hwf hoff
    show rollbackWalk tx
        ((LogRec.setInt tx blk off (readSIntP 4 (st blk) off)
          :: intRecs tx rest st1).reverse)
        ⟨intStore rest st1, L⟩ = ⟨st, L⟩
    rw [List.reverse_cons]
    rw [rollbackWalk_append tx _ _ _
        (fun r hr => intRecs_no_stop tx rest st1 r (List.mem_reverse.mp hr))]
    rw [ih st1 L hwf1 (fun o ho => hops o (by simp [ho]))]
    show rollbackWalk tx [LogRec.setInt tx blk off (readSIntP 4 (st blk) off)]
        ⟨st1, L⟩ = ⟨st, L⟩
    simp only [rollbackWalk]
    rw [if_neg (by simp [rollbackStop]), if_pos (by simp [rollbackUndoes])]
    show txSetInt ⟨st1, L⟩ tx blk off (readSIntP 4 (st blk) off) false = ⟨st, L⟩
    have hs1b : st1 blk = writeSIntP 4 v (st blk) off := by
      rw [hst1]
      simp [storeWrite]
    have hpage : writeSIntP 4 (readSIntP 4 (st blk) off) (st1 blk) off
        = st blk := by
      rw [hs1b]
      exact setInt_undo_cancel (st blk) off v
        (by rw [(hwf blk).1]; exact hoff) (hwf blk).2
    have hstore : storeWrite st1 blk
        (writeSIntP 4 (readSIntP 4 (st blk) off) (st1 blk) off) = st := by
      funext b
      simp only [storeWrite]
      by_cases hbe : b = blk
      · rw [if_pos hbe, hpage, hbe]
      · rw [if_neg hbe, hst1]
        simp only [storeWrite]
        rw [if_neg hbe]
    show (⟨storeWrite st1 blk
        (writeSIntP 4 (readSIntP 4 (st blk) off) (st1 blk) off), L⟩ : TxState)
      = ⟨st, L⟩
    rw [hstore]

theorem writeBytesP_take_left (p d : List Nat) (off : Nat)
    (h : off ≤ p.length) :
    (writeBytesP p d off).take off = p.take off := by
  unfold writeBytesP
  rw [List.take_append_of_le_length (by simp; omega),
    List.take_append_of_le_length (by simp; omega),
    List.take_take, min_self]

theorem readBytesP_take (p : List Nat) (m off len : Nat) (h : off + len ≤ m) :
    readBytesP (p.take m) off len = readBytesP p off len := by
  unfold readBytesP
  rw [List.drop_take, List.take_take, min_eq_left (by omega)]

theorem readBytesP_agree (p p2 : List Nat) (m off len : Nat)
    (hpre : p.take m = p2.take m) (h : off + len ≤ m) :
    readBytesP p off len = readBytesP p2 off len := by
  rw [← readBytesP_take p m off len h, hpre, readBytesP_take p2 m off len h]

theorem encBE4_decBE4_bytes (bs : List Nat) (hlen : bs.length = 4)
    (hlt : ∀ x ∈ bs, x < 256) : encBE4 (decBE4 bs) = bs := by
  have hb : ∀ x ∈ bs.reverse, x < 256 :=
    fun x hx => hlt x (List.mem_reverse.mp hx)
  show (encLE 4 (decLE bs.reverse)).reverse = bs
  calc (encLE 4 (decLE bs.reverse)).reverse
      = (encLE bs.reverse.length (decLE bs.reverse)).reverse := by
        rw [show bs.reverse.length = 4 from by simp [hlen]]
    _ = bs.reverse.reverse := by rw [encLE_decLE _ hb]
    _ = bs := List.reverse_reverse bs

theorem readStrP_length (page : List Nat) (off : Nat)
    (h : off + 4 + decBE4 (readBytesP page off 4) ≤ page.length) :
    (readStrP page off).length = decBE4 (readBytesP page off 4) :=
  readBytesP_length page (off + 4) _ (by omega)

/-- The length prefix plus payload of a stored string is exactly the raw
byte window it occupies. -/
theorem readStr_window (page : List Nat) (off : Nat)
    (hlt : ∀ x ∈ page, x < 256)
    (h : off + 4 + decBE4 (readBytesP page off 4) ≤ page.length) :
    encBE4 (readStrP page off).length ++ readStrP page off
      = readBytesP page off (4 + decBE4 (readBytesP page off 4)) := by
  rw [readStrP_length page off h]
  rw [readBytesP_split page off 4 (decBE4 (readBytesP page off 4))]
  congr 1
  exact encBE4_decBE4_bytes _ (readBytesP_length page off 4 (by omega))
    (readBytesP_bytes_lt page off 4 hlt)

theorem writeBytesP_readBytesP_other (p q : List Nat) (off len : Nat)
    (hlen : off + len ≤ p.length) (hq : q.take off = p.take off) :
    writeBytesP q (readBytesP p off len) off
      = p.take (off + len) ++ q.drop (off + len) := by
  unfold writeBytesP
  rw [readBytesP_length p off len hlen, hq, take_append_readBytesP]

/-- Undoing a logged `set_string` rewrites exactly the byte extent of the
pre-image string: bytes up to `off + 4 + old_len` are restored, the rest of
the page keeps whatever the overwrite left there. -/
theorem setString_undo_shape (page : List Nat) (off : Nat) (v : List Nat)
    (hlt : ∀ x ∈ page, x < 256)
    (hwfold : off + 4 + decBE4 (readBytesP page off 4) ≤ page.length) :
    writeStrP (readStrP page off) (writeStrP v page off) off
      = page.take (off + 4 + decBE4 (readBytesP page off 4))
        ++ (writeStrP v page off).drop
            (off + 4 + decBE4 (readBytesP page off 4)) := by
  have hq : (writeStrP v page off).take off = page.take off :=
    writeBytesP_take_left page _ off (by omega)
  have h1 : writeStrP (readStrP page off) (writeStrP v page off) off
      = writeBytesP (writeStrP v page off)
          (readBytesP page off (4 + decBE4 (readBytesP page off 4))) off := by
    show writeBytesP (writeStrP v page off)
        (encBE4 (readStrP page off).length ++ readStrP page off) off = _
    rw [readStr_window page off hlt hwfold]
  rw [h1, writeBytesP_readBytesP_other page _ off _ (by omega) hq,
    ← Nat.add_assoc]

theorem take_of_patched (page q : List Nat) (K : Nat) (hK : K ≤ page.length) :
    (page.take K ++ q.drop K).take K = page.take K := by
  rw [List.take_append_of_le_length (by simp; omega), List.take_take, min_self]

theorem readStrP_patched (page q : List Nat) (off olen : Nat)
    (holen : decBE4 (readBytesP page off 4) = olen)
    (hK : off + 4 + olen ≤ page.length) :
    readStrP (page.take (off + 4 + olen) ++ q.drop (off + 4 + olen)) off
      = readStrP page off := by
  have hpre : (page.take (off + 4 + olen) ++ q.drop (off + 4 + olen)).take
        (off + 4 + olen) = page.take (off + 4 + olen) :=
    take_of_patched page q _ hK
  simp only [readStrP]
  rw [readBytesP_agree _ page (off + 4 + olen) off 4 hpre (by omega)]
  rw [holen]
  exact readBytesP_agree _ page (off + 4 + olen) (off + 4) olen hpre (by omega)

theorem writeStrP_drop_ge (page : List Nat) (off olen : Nat) (v : List Nat)
    (hv : v.length ≤ olen) (hoff : off ≤ page.length) :
    (writeStrP v page off).drop (off + 4 + olen)
      = page.drop (off + 4 + olen) := by
  unfold writeStrP writeBytesP
  have hlen : (page.take off ++ (encBE4 v.length ++ v)).length
      = off + 4 + v.length := by
    simp [encBE4_length]
    omega
  rw [List.drop_append_eq_append_drop,
    List.drop_eq_nil_of_le (by rw [hlen]; omega), List.nil_append,
    List.drop_drop, hlen]
  congr 1
  simp [encBE4_length]
  omega

theorem txRollback_intOps (P : Nat) (tx : Int) (st0 : StoreM)
    (log0 : List LogRec) (ops : List IntOp) (hwf : StoreWF P st0)
    (hlog0 : ∀ r ∈ log0, rollbackUndoes r tx = false)
    (hops : ∀ op ∈ ops, op.2.1 + 4 ≤ P) :
    (txRollback (applyIntOps tx ops ⟨st0, log0⟩) tx).store = st0 := by
  rw [applyIntOps_eq]
  unfold txRollback
  show (rollbackWalk tx ((log0 ++ intRecs tx ops st0).reverse)
      ⟨intStore ops st0, log0 ++ intRecs tx ops st0⟩).store = st0
  rw [List.reverse_append]
  rw [rollbackWalk_append tx _ _ _
      (fun r hr => intRecs_no_stop tx ops st0 r (List.mem_reverse.mp hr))]
  rw [rollbackWalk_intRecs P tx ops st0 _ hwf hops]
  rw [rollbackWalk_inert tx log0.reverse _
      (fun r hr => hlog0 r (List.mem_reverse.mp hr))]

theorem txRollback_setString_store (tx : Int) (st0 : StoreM)
    (log0 : List LogRec) (blk : String × Nat) (off : Nat) (v : List Nat)
    (hlog0 : ∀ r ∈ log0, rollbackUndoes r tx = false) :
    (txRollback (txSetString ⟨st0, log0⟩ tx blk off v true) tx).store
      = storeWrite (storeWrite st0 blk (writeStrP v (st0 blk) off)) blk
          (writeStrP (readStrP (st0 blk) off)
            (storeWrite st0 blk (writeStrP v (st0 blk) off) blk) off) := by
  have hs1eq : txSetString ⟨st0, log0⟩ tx blk off v true
      = ⟨storeWrite st0 blk (writeStrP v (st0 blk) off),
         log0 ++ [LogRec.setString tx blk off (readStrP (st0 blk) off)]⟩ := rfl
  have hone : ∀ s : TxState,
      rollbackWalk tx [LogRec.setString tx blk off (readStrP (st0 blk) off)] s
        = txSetString s tx blk off (readStrP (st0 blk) off) false := by
    intro s
    simp only [rollbackWalk]
    rw [if_neg (by simp [rollbackStop]), if_pos (by simp [rollbackUndoes])]
    rfl
  unfold txRollback
  rw [hs1eq]
  show (rollbackWalk tx
      ((log0 ++ [LogRec.setString tx blk off (readStrP (st0 blk) off)]).reverse)
      ⟨storeWrite st0 blk (writeStrP v (st0 blk) off),
       log0 ++ [LogRec.setString tx blk off (readStrP (st0 blk) off)]⟩).store
    = _
  rw [List.reverse_append, List.reverse_singleton]
  rw [rollbackWalk_append tx _ log0.reverse _
      (by intro r hr; rw [List.mem_singleton] at hr; subst hr; rfl)]
  rw [hone]
  rw [rollbackWalk_inert tx log0.reverse _
      (fun r hr => hlog0 r (List.mem_reverse.mp hr))]
  rfl

/-- **C3**: amended rollback property.  With a well-formed store and no
earlier update records of this transaction in the log: (i) a transaction
that performed only logged `set_int` writes is fully restored by
`rollback()`; (ii) after a logged `set_string`, rollback rewrites exactly
the byte extent of the pre-image string — the stored string value and every
other block are restored, and the whole page is restored when the new
string is no longer than the old one — but bytes beyond the pre-image
extent keep the overwriting value, so a longer new string is **not** fully
undone (see the counterexample). -/
theorem rollback_restores (P : Nat) (tx : Int) (st0 : StoreM)
    (log0 : List LogRec) (hwf : StoreWF P st0)
    (hlog0 : ∀ r ∈ log0, rollbackUndoes r tx = false) :
    (∀ ops : List IntOp, (∀ op ∈ ops, op.2.1 + 4 ≤ P) →
      (txRollback (applyIntOps tx ops ⟨st0, log0⟩) tx).store = st0) ∧
    (∀ (blk : String × Nat) (off : Nat) (v : List Nat),
      off + 4 + decBE4 (readBytesP (st0 blk) off 4) ≤ P →
      ((txRollback (txSetString ⟨st0, log0⟩ tx blk off v true) tx).store blk
          = (st0 blk).take (off + 4 + decBE4 (readBytesP (st0 blk) off 4))
            ++ (writeStrP v (st0 blk) off).drop
                (off + 4 + decBE4 (readBytesP (st0 blk) off 4)))
        ∧ (∀ b, b ≠ blk →
            (txRollback (txSetString ⟨st0, log0⟩ tx blk off v true) tx).store b
              = st0 b)
        ∧ readStrP
            ((txRollback (txSetString ⟨st0, log0⟩ tx blk off v true) tx).store
              blk) off = readStrP (st0 blk) off
        ∧ (v.length ≤ decBE4 (readBytesP (st0 blk) off 4) →
            (txRollback (txSetString ⟨st0, log0⟩ tx blk off v true) tx).store
              blk = st0 blk)) := by
  constructor
  · intro ops hops
    exact txRollback_intOps P tx st0 log0 ops hwf hlog0 hops
  · intro blk off v hfit
    have hP : (st0 blk).length = P := (hwf blk).1
    have hlt : ∀ x ∈ st0 blk, x < 256 := (hwf blk).2
    have hwfold : off + 4 + decBE4 (readBytesP (st0 blk) off 4)
        ≤ (st0 blk).length := by rw [hP]; exact hfit
    have hst := txRollback_setString_store tx st0 log0 blk off v hlog0
    have hblk : (txRollback (txSetString ⟨st0, log0⟩ tx blk off v true)
          tx).store blk
        = (st0 blk).take (off + 4 + decBE4 (readBytesP (st0 blk) off 4))
          ++ (writeStrP v (st0 blk) off).drop
              (off + 4 + decBE4 (readBytesP (st0 blk) off 4)) := by
      rw [hst]
      simp only [storeWrite, if_pos rfl]
      exact setString_undo_shape (st0 blk) off v hlt hwfold
    refine ⟨hblk, ?_, ?_, ?_⟩
    · intro b hb
      rw [hst]
      simp only [storeWrite]
      rw [if_neg hb, if_neg hb]
    · rw [hblk]
      exact readStrP_patched (st0 blk) (writeStrP v (st0 blk) off) off _ rfl
        hwfold
    · intro hv
      rw [hblk, writeStrP_drop_ge (st0 blk) off _ v hv (by omega)]
      exact List.take_append_drop _ _

theorem rollback_restores_witness :
    (∀ r ∈ ([] : List LogRec), rollbackUndoes r 0 = false) ∧
    (txRollback (applyIntOps 0 [((("t", 0), 1, -5) : IntOp)]
        ⟨fun _ => List.replicate 16 0, []⟩) 0).store
      = fun _ => List.replicate 16 0 :=
  ⟨by simp,
   (rollback_restores 16 0 (fun _ => List.replicate 16 0) []
      (fun _ => ⟨by simp,
        fun x hx => by rw [List.eq_of_mem_replicate hx]; norm_num⟩)
      (by simp)).1 [((("t", 0), 1, -5) : IntOp)]
    (by intro op hop; rw [List.mem_singleton] at hop; subst hop; norm_num)⟩

/-- Refutes the original C3: one logged `set_string` of the one-byte string
`[98]` over a zeroed 16-byte page (whose stored string at offset 0 is
empty) is rolled back, yet byte 4 still holds 98 — `undo` rewrote only the
empty pre-image extent, not the byte the transaction dirtied. -/
theorem rollback_string_counterexample :
    ((txRollback (txSetString ⟨fun _ => List.replicate 16 0, []⟩ 0 ("t", 0) 0
        [98] true) 0).store ("t", 0)).getD 4 0 = 98
    ∧ (List.replicate 16 0).getD 4 0 = 0 := by
  constructor
  · decide
  · decide

/-! ## RecordPage::format

Sources: `backend/src/record_page.rs` (`RecordPage::format`, `offset`,
`is_valid_slot`) and `backend/src/layout.rs` (`Layout::slot_size`,
`Layout::offset`).  A layout is its ordered field list (type code and
offset within a slot) plus the slot size; `format` is modelled as the list
of page writes it issues, each carrying its `ok_to_log` flag. -/

structure FieldM where
  ftype : Nat
  foffset : Nat
  deriving DecidableEq, Repr

structure LayoutM where
  fields : List FieldM
  slot_size : Nat
  deriving DecidableEq, Repr

/-- `RecordPage::offset(slot) = layout.slot_size() * slot`. -/
def rpOffset (L : LayoutM) (slot : Nat) : Nat := L.slot_size * slot

/-- `RecordPage::is_valid_slot(slot)`: `offset(slot + 1) <= block_size`. -/
def isValidSlot (P : Nat) (L : LayoutM) (slot : Nat) : Bool :=
  rpOffset L (slot + 1) ≤ P

inductive RPWrite where
  | wint (offset : Nat) (val : Int) (logged : Bool)
  | wstr (offset : Nat) (val : List Nat) (logged : Bool)
  | fault
  deriving DecidableEq, Repr

def rpLogged : RPWrite → Bool
  | .wint _ _ l => l
  | .wstr _ _ l => l
  | .fault => false

/-- The default write `format` issues for one field of one slot
(`Some(0)` → `set_int(.., 0, false)`, `Some(1)` → `set_string(.., "", false)`,
anything else panics). -/
def fieldWrite (L : LayoutM) (slot : Nat) (f : FieldM) : RPWrite :=
  if f.ftype = 0 then RPWrite.wint (rpOffset L slot + f.foffset) 0 false
  else if f.ftype = 1 then RPWrite.wstr (rpOffset L slot + f.foffset) [] false
  else RPWrite.fault

/-- One iteration of `format`'s loop body: the `EMPTY` flag write
(`set_int(offset(slot), EMPTY, false)`, `EMPTY = 0`) followed by the
per-field default writes. -/
def slotWrites (L : LayoutM) (slot : Nat) : List RPWrite :=
  RPWrite.wint (rpOffset L slot) 0 false :: L.fields.map (fieldWrite L slot)

def formatGo (P : Nat) (L : LayoutM) : Nat → Nat → List RPWrite
  | 0, _ => []
  | fuel + 1, slot =>
    if isValidSlot P L slot then
      slotWrites L slot ++ formatGo P L fuel (slot + 1)
    else []

/-- `RecordPage::format()`: walk slots from 0 while `is_valid_slot`.
With `slot_size ≥ 1` the loop runs at most `P` iterations, so fuel `P + 1`
is exact. -/
def formatWrites (P : Nat) (L : LayoutM) : List RPWrite :=
  formatGo P L (P + 1) 0

/-- Replaying the writes through the transaction: `set_int`/`set_string`
with the recorded `ok_to_log` flag. -/
def applyRPWrites (tx : Int) (blk : String × Nat) :
    List RPWrite → TxState → TxState
  | [], s => s
  | RPWrite.wint off v l :: rest, s =>
    applyRPWrites tx blk rest (txSetInt s tx blk off v l)
  | RPWrite.wstr off v l :: rest, s =>
    applyRPWrites tx blk rest (txSetString s tx blk off v l)
  | RPWrite.fault :: _, s => s

theorem formatGo_eq (P : Nat) (L : LayoutM) (hss : 1 ≤ L.slot_size) :
    ∀ (fuel slot : Nat), P + 1 ≤ fuel + slot →
      formatGo P L fuel slot
        = ((List.range' slot (P / L.slot_size - slot)).map
            (slotWrites L)).flatten := by
  intro fuel
  induction fuel with
  | zero =>
    intro slot hf
    have hinv : P / L.slot_size ≤ slot := le_trans (Nat.div_le_self P _) (by omega)
    rw [show P / L.slot_size - slot = 0 from by omega]
    rfl
  | succ fuel ih =>
    intro slot hf
    by_cases hv : isValidSlot P L slot = true
    · have hle : L.slot_size * (slot + 1) ≤ P := by
        have h2 := of_decide_eq_true hv
        exact h2
      have hdiv : slot + 1 ≤ P / L.slot_size :=
        (Nat.le_div_iff_mul_le (by omega)).mpr (by rw [Nat.mul_comm]; exact hle)
      show (if isValidSlot P L slot then
          slotWrites L slot ++ formatGo P L fuel (slot + 1) else []) = _
      rw [if_pos hv]
      rw [ih (slot + 1) (by omega)]
      rw [show P / L.slot_size - slot = (P / L.slot_size - (slot + 1)) + 1
        from by omega]
      rw [List.range'_succ, List.map_cons, List.flatten_cons]
    · have hgt : ¬ L.slot_size * (slot + 1) ≤ P := by
        intro hc
        exact hv (decide_eq_true hc)
      have hdiv : P / L.slot_size ≤ slot := by
        by_contra hc
        push_neg at hc
        have h2 := (Nat.le_div_iff_mul_le (by omega : 0 < L.slot_size)).mp hc
        rw [Nat.mul_comm] at h2
        exact hgt h2
      show (if isValidSlot P L slot then
          slotWrites L slot ++ formatGo P L fuel (slot + 1) else []) = _
      rw [if_neg hv, show P / L.slot_size - slot = 0 from by omega]
      rfl

theorem slotWrites_unlogged (L : LayoutM) (slot : Nat) :
    ∀ w ∈ slotWrites L slot, rpLogged w = false := by
  intro w hw
  simp only [slotWrites, List.mem_cons, List.mem_map] at hw
  rcases hw with h | ⟨f, _hf, hfe⟩
  · subst h; rfl
  · subst hfe
    unfold fieldWrite
    by_cases h0 : f.ftype = 0
    · rw [if_pos h0]; rfl
    · rw [if_neg h0]
      by_cases h1 : f.ftype = 1
      · rw [if_pos h1]; rfl
      · rw [if_neg h1]; rfl

theorem applyRPWrites_log (tx : Int) (blk : String × Nat) :
    ∀ (ws : List RPWrite) (s : TxState),
      (∀ w ∈ ws, rpLogged w = false) →
      (applyRPWrites tx blk ws s).log = s.log := by
  intro ws
  induction ws with
  | nil => intro s _; rfl
  | cons w rest ih =>
    intro s h
    cases w with
    | wint off v l =>
      have hl : l = false := h (RPWrite.wint off v l) (by simp)
      subst hl
      show (applyRPWrites tx blk rest (txSetInt s tx blk off v false)).log
        = s.log
      rw [ih _ (fun w2 hw2 => h w2 (by simp [hw2]))]
      rfl
    | wstr off v l =>
      have hl : l = false := h (RPWrite.wstr off v l) (by simp)
      subst hl
      show (applyRPWrites tx blk rest (txSetString s tx blk off v false)).log
        = s.log
      rw [ih _ (fun w2 hw2 => h w2 (by simp [hw2]))]
      rfl
    | fault => rfl

/-- **C8**: corrected. `format()` does walk exactly the slots with
`(slot + 1) * slot_size ≤ page_size` (i.e. slots `0 .. page_size/slot_size`),
writing the `EMPTY` flag and zero/empty-string defaults to every field of
every slot — but every one of these writes passes `ok_to_log = false`, so
none of them is appended to the recovery log: replaying the whole of
`format()` through the transaction leaves the log untouched. -/
theorem format_writes_unlogged (P : Nat) (L : LayoutM)
    (hss : 1 ≤ L.slot_size) :
    formatWrites P L
      = ((List.range (P / L.slot_size)).map (slotWrites L)).flatten
    ∧ (∀ w ∈ formatWrites P L, rpLogged w = false)
    ∧ (∀ (tx : Int) (blk : String × Nat) (s : TxState),
        (applyRPWrites tx blk (formatWrites P L) s).log = s.log) := by
  have h1 : formatWrites P L
      = ((List.range (P / L.slot_size)).map (slotWrites L)).flatten := by
    unfold formatWrites
    rw [formatGo_eq P L hss (P + 1) 0 (by omega)]
    rw [Nat.sub_zero, List.range_eq_range']
  have h2 : ∀ w ∈ formatWrites P L, rpLogged w = false := by
    rw [h1]
    intro w hw
    rw [List.mem_flatten] at hw
    obtain ⟨l, hl, hwl⟩ := hw
    rw [List.mem_map] at hl
    obtain ⟨slot, _, hsl⟩ := hl
    subst hsl
    exact slotWrites_unlogged L slot w hwl
  exact ⟨h1, h2, fun tx blk s => applyRPWrites_log tx blk _ s h2⟩

theorem format_writes_unlogged_witness :
    1 ≤ (LayoutM.mk [FieldM.mk 0 4] 8).slot_size ∧
    ∀ w ∈ formatWrites 16 (LayoutM.mk [FieldM.mk 0 4] 8),
      rpLogged w = false :=
  ⟨by decide, (format_writes_unlogged 16 (LayoutM.mk [FieldM.mk 0 4] 8)
    (by decide)).2.1⟩

/-- Refutes the original C8: formatting a 16-byte page under a layout with
one i32 field at offset 4 and slot size 8 issues exactly four writes (flag
and field default for slots 0 and 1) and every one carries
`ok_to_log = false` — none is logged. -/
theorem format_logged_counterexample :
    formatWrites 16 (LayoutM.mk [FieldM.mk 0 4] 8)
      = [RPWrite.wint 0 0 false, RPWrite.wint 4 0 false,
         RPWrite.wint 8 0 false, RPWrite.wint 12 0 false] := by
  decide

/-! ## B-tree leaf insert and split

Sources: `backend/src/index/btree/btree_leaf.rs` (`BTreeLeaf::insert`) and
`backend/src/index/btree/btree_page.rs` (`BTPage::split`,
`BTPage::insert_leaf`, `BTPage::transfer_records`, `BTPage::is_full`,
`BTPage::find_slot_before`, `BTPage::slot_pos`).  A leaf page is its flag
plus the ordered record list; `split(split_pos, flag)` keeps records
`[0..split_pos)` and moves `[split_pos..]`, in order, to a fresh page whose
flag is the argument.  Keys (`dataval`) are modelled as `Int`. -/

structure LeafRec where
  dataval : Int
  rblock : Nat
  rslot : Int
  deriving DecidableEq, Repr

def leafRec0 : LeafRec := ⟨0, 0, 0⟩

structure LeafPage where
  flag : Int
  recs : List LeafRec
  deriving DecidableEq, Repr

def leafVals (recs : List LeafRec) : List Int := recs.map LeafRec.dataval

/-- `get_data_val(slot)` (out-of-range reads never occur on the paths
proved below). -/
def valAt (recs : List LeafRec) (i : Nat) : Int :=
  (recs.getD i leafRec0).dataval

/-- The `while get_data_val(split_pos) == split_key { split_pos += 1 }`
scan. -/
def moveRight (vals : List Int) (k : Int) : Nat → Nat → Nat
  | 0, i => i
  | fuel + 1, i => if vals.getD i 0 = k then moveRight vals k fuel (i + 1) else i

/-- The `while get_data_val(split_pos - 1) == split_key { split_pos -= 1 }`
scan. -/
def moveLeft (vals : List Int) (k : Int) : Nat → Nat → Nat
  | 0, i => i
  | fuel + 1, i => if vals.getD (i - 1) 0 = k then moveLeft vals k fuel (i - 1) else i

/-- `insert_leaf` at slot `find_slot_before(key) + 1`: `find_slot_before`
walks forward while `get_data_val(slot) < key`, and `BTPage::insert(slot)`
shifts `[slot..]` right before the record is written at `slot`. -/
def leafInsertRecs (recs : List LeafRec) (r : LeafRec) : List LeafRec :=
  recs.take (recs.takeWhile (fun x => x.dataval < r.dataval)).length
    ++ r :: recs.drop (recs.takeWhile (fun x => x.dataval < r.dataval)).length

/-- `BTreeLeaf::insert` with the fresh block number `newBlk` supplied by
`tx.append`.  Result: the current page, the optional new page, and the
optional directory entry `(split_key, new_block)`.
`is_full` is `slot_pos(num_records + 1) ≥ block_size` with
`slot_pos(k) = 2 * size_of::<u32>() + k * slot_size`. -/
def leafInsertModel (P ss newBlk : Nat) (pg : LeafPage) (r : LeafRec) :
    LeafPage × Option LeafPage × Option (Int × Nat) :=
  if (0 : Int) ≤ pg.flag ∧ r.dataval < valAt pg.recs 0 then
    (⟨-1, [r]⟩, some ⟨pg.flag, pg.recs⟩, some (valAt pg.recs 0, newBlk))
  else
    let recs1 := leafInsertRecs pg.recs r
    if 8 + (recs1.length + 1) * ss < P then
      (⟨pg.flag, recs1⟩, none, none)
    else
      if valAt recs1 0 = valAt recs1 (recs1.length - 1) then
        (⟨(newBlk : Int), recs1.take 1⟩, some ⟨pg.flag, recs1.drop 1⟩, none)
      else
        let sp0 := recs1.length / 2
        let k0 := valAt recs1 sp0
        if k0 = valAt recs1 0 then
          let sp := moveRight (leafVals recs1) k0 recs1.length sp0
          (⟨pg.flag, recs1.take sp⟩, some ⟨-1, recs1.drop sp⟩,
            some (valAt recs1 sp, newBlk))
        else
          let sp := moveLeft (leafVals recs1) k0 recs1.length sp0
          (⟨pg.flag, recs1.take sp⟩, some ⟨-1, recs1.drop sp⟩,
            some (k0, newBlk))

theorem getD_map_dataval (recs : List LeafRec) (i : Nat) :
    (leafVals recs).getD i 0 = valAt recs i := by
  unfold leafVals valAt
  by_cases h : i < recs.length
  · rw [List.getD_eq_getElem _ _ (by simpa using h), List.getD_eq_getElem _ _ h]
    simp
  · rw [List.getD_eq_default _ _ (by simpa using Nat.le_of_not_lt h),
      List.getD_eq_default _ _ (Nat.le_of_not_lt h)]
    rfl

theorem take_takeWhile_len {α : Type} (p : α → Bool) (l : List α) :
    l.take (l.takeWhile p).length = l.takeWhile p := by
  induction l with
  | nil => rfl
  | cons a t ih =>
    by_cases h : p a
    · simp [List.takeWhile_cons, h, ih]
    · simp [List.takeWhile_cons, h]

theorem drop_takeWhile_len {α : Type} (p : α → Bool) (l : List α) :
    l.drop (l.takeWhile p).length = l.dropWhile p := by
  induction l with
  | nil => rfl
  | cons a t ih =>
    by_cases h : p a
    · simp [List.takeWhile_cons, List.dropWhile_cons, h, ih]
    · simp [List.takeWhile_cons, List.dropWhile_cons, h]

theorem dropWhile_head_false {α : Type} (p : α → Bool) (l : List α)
    (a : α) (t : List α) (h : l.dropWhile p = a :: t) : p a = false := by
  induction l with
  | nil => simp [List.dropWhile] at h
  | cons b l2 ih =>
    rw [List.dropWhile_cons] at h
    by_cases hb : p b = true
    · rw [if_pos hb] at h
      exact ih h
    · rw [if_neg hb] at h
      cases h
      simpa using hb

theorem pairwise_getD_mono (vals : List Int)
    (hs : List.Pairwise (· ≤ ·) vals) (i j : Nat) (hij : i ≤ j)
    (hj : j < vals.length) : vals.getD i 0 ≤ vals.getD j 0 := by
  rcases Nat.eq_or_lt_of_le hij with h | h
  · subst h
    exact le_refl _
  · rw [List.getD_eq_getElem _ _ (lt_trans h hj), List.getD_eq_getElem _ _ hj]
    exact List.pairwise_iff_get.mp hs ⟨i, lt_trans h hj⟩ ⟨j, hj⟩ h

theorem leafVals_insert_sorted (recs : List LeafRec) (r : LeafRec)
    (hs : List.Pairwise (· ≤ ·) (leafVals recs)) :
    List.Pairwise (· ≤ ·) (leafVals (leafInsertRecs recs r)) := by
  unfold leafInsertRecs
  rw [take_takeWhile_len, drop_takeWhile_len]
  unfold leafVals
  rw [List.map_append, List.map_cons]
  have hdropsub : ∀ x ∈ recs.dropWhile (fun x => x.dataval < r.dataval),
      r.dataval ≤ x.dataval := by
    cases hdw : recs.dropWhile (fun x => x.dataval < r.dataval) with
    | nil => intro x hx; simp at hx
    | cons a t =>
      intro x hx
      have pa : (decide (a.dataval < r.dataval)) = false :=
        dropWhile_head_false _ recs a t hdw
      have ha : r.dataval ≤ a.dataval := by
        have h2 := of_decide_eq_false pa
        omega
      have hsub : List.Pairwise (· ≤ ·) ((a :: t).map LeafRec.dataval) := by
        have h3 : List.Sublist ((a :: t).map LeafRec.dataval)
            (recs.map LeafRec.dataval) := by
          rw [← hdw]
          exact List.Sublist.map _ (List.dropWhile_sublist _)
        exact (List.Pairwise.sublist h3 hs)
      rcases List.mem_cons.mp hx with h | h
      · subst h
        exact ha
      · rw [List.map_cons, List.pairwise_cons] at hsub
        exact le_trans ha (hsub.1 x.dataval (List.mem_map_of_mem _ h))
  have htakelt : ∀ y ∈ (recs.takeWhile (fun x => x.dataval < r.dataval)).map
      LeafRec.dataval, y ≤ r.dataval := by
    intro y hy
    rw [List.mem_map] at hy
    obtain ⟨x, hx, hxe⟩ := hy
    have := List.mem_takeWhile_imp hx
    subst hxe
    have h2 := of_decide_eq_true this
    omega
  rw [List.pairwise_append]
  refine ⟨?_, ?_, ?_⟩
  · exact List.Pairwise.sublist
      (List.Sublist.map _ (List.takeWhile_sublist _)) hs
  · rw [List.pairwise_cons]
    refine ⟨?_, ?_⟩
    · intro b hb
      rw [List.mem_map] at hb
      obtain ⟨x, hx, hxe⟩ := hb
      subst hxe
      exact hdropsub x hx
    · exact List.Pairwise.sublist
        (List.Sublist.map _ (List.dropWhile_sublist _)) hs
  · intro a ha b hb
    rcases List.mem_cons.mp hb with h | h
    · subst h
      exact htakelt a ha
    · rw [List.mem_map] at h
      obtain ⟨x, hx, hxe⟩ := h
      subst hxe
      exact le_trans (htakelt a ha) (hdropsub x hx)

theorem valAt_mono (recs : List LeafRec)
    (hs : List.Pairwise (· ≤ ·) (leafVals recs)) (i j : Nat) (hij : i ≤ j)
    (hj : j < recs.length) : valAt recs i ≤ valAt recs j := by
  rw [← getD_map_dataval, ← getD_map_dataval]
  exact pairwise_getD_mono _ hs i j hij (by simpa [leafVals] using hj)

theorem leafInsertRecs_length (recs : List LeafRec) (r : LeafRec) :
    (leafInsertRecs recs r).length = recs.length + 1 := by
  unfold leafInsertRecs
  have h : (recs.takeWhile
      (fun x : LeafRec => decide (x.dataval < r.dataval))).length
      ≤ recs.length := (List.takeWhile_sublist _).length_le
  simp
  omega

theorem moveRight_spec (vals : List Int) (k : Int) :
    ∀ (fuel i : Nat), (∃ j, i ≤ j ∧ j < i + fuel ∧ vals.getD j 0 ≠ k) →
      i ≤ moveRight vals k fuel i
      ∧ vals.getD (moveRight vals k fuel i) 0 ≠ k
      ∧ (∀ j, i ≤ j → j < moveRight vals k fuel i → vals.getD j 0 = k)
      ∧ (∀ j, i ≤ j → vals.getD j 0 ≠ k → moveRight vals k fuel i ≤ j) := by
  intro fuel
  induction fuel with
  | zero =>
    intro i h
    obtain ⟨j, h1, h2, _⟩ := h
    exact absurd h2 (by omega)
  | succ fuel ih =>
    intro i h
    by_cases hv : vals.getD i 0 = k
    · have hwit : ∃ j, i + 1 ≤ j ∧ j < (i + 1) + fuel ∧ vals.getD j 0 ≠ k := by
        obtain ⟨j, h1, h2, h3⟩ := h
        refine ⟨j, ?_, by omega, h3⟩
        rcases Nat.eq_or_lt_of_le h1 with he | hlt
        · exfalso
          apply h3
          rw [← he]
          exact hv
        · omega
      have hrec := ih (i + 1) hwit
      rw [show moveRight vals k (fuel + 1) i = moveRight vals k fuel (i + 1)
        from by simp only [moveRight]; rw [if_pos hv]]
      obtain ⟨A, B, C, D⟩ := hrec
      refine ⟨by omega, B, ?_, ?_⟩
      · intro j hj1 hj2
        rcases Nat.eq_or_lt_of_le hj1 with he | hlt
        · rw [← he]
          exact hv
        · exact C j (by omega) hj2
      · intro j hj1 hjk
        have hj2 : i + 1 ≤ j := by
          rcases Nat.eq_or_lt_of_le hj1 with he | hlt
          · exfalso
            apply hjk
            rw [← he]
            exact hv
          · omega
        exact D j hj2 hjk
    · rw [show moveRight vals k (fuel + 1) i = i
        from by simp only [moveRight]; rw [if_neg hv]]
      exact ⟨le_refl i, hv, fun j h1 h2 => absurd h2 (by omega),
        fun j hj _ => hj⟩

theorem moveLeft_spec (vals : List Int) (k : Int) (h0 : vals.getD 0 0 ≠ k) :
    ∀ (fuel i : Nat), 1 ≤ i → i ≤ fuel →
      1 ≤ moveLeft vals k fuel i
      ∧ moveLeft vals k fuel i ≤ i
      ∧ vals.getD (moveLeft vals k fuel i - 1) 0 ≠ k
      ∧ (∀ j, moveLeft vals k fuel i ≤ j → j < i → vals.getD j 0 = k) := by
  intro fuel
  induction fuel with
  | zero =>
    intro i h1 h2
    exact absurd h2 (by omega)
  | succ fuel ih =>
    intro i h1 h2
    by_cases hv : vals.getD (i - 1) 0 = k
    · have hi2 : 2 ≤ i := by
        by_contra hc
        have hie : i = 1 := by omega
        rw [hie] at hv
        exact h0 (by simpa using hv)
      have hrec := ih (i - 1) (by omega) (by omega)
      rw [show moveLeft vals k (fuel + 1) i = moveLeft vals k fuel (i - 1)
        from by simp only [moveLeft]; rw [if_pos hv]]
      obtain ⟨A, B, C, D⟩ := hrec
      refine ⟨A, by omega, C, ?_⟩
      intro j hj1 hj2
      by_cases hji : j < i - 1
      · exact D j hj1 hji
      · rw [show j = i - 1 from by omega]
        exact hv
    · rw [show moveLeft vals k (fuel + 1) i = i
        from by simp only [moveLeft]; rw [if_neg hv]]
      exact ⟨h1, le_refl i, hv, fun j hj1 hj2 => absurd hj2 (by omega)⟩

/-- **C9**: a full B-tree leaf splits as specified.  `recs1` is the record
list right after the pre-split insert.  If every record shares one
`dataval`, all records except the first move to a new overflow page (whose
flag inherits the old chain link) and the leaf's flag is set to the new
block, with no directory entry.  Otherwise a split position `sp` is chosen
starting from `num_records / 2` and moved to the nearest run boundary
(entirely rightward past the first key's run, or leftward to the start of
the middle key's run), records `[sp..]` move to a new sibling with flag
`-1`, a directory entry `(dataval at sp, new_block)` is returned, and no
two records with equal dataval land on different pages. -/
theorem btree_leaf_split (P ss newBlk : Nat) (pg : LeafPage) (r : LeafRec)
    (recs1 : List LeafRec) (hr1 : recs1 = leafInsertRecs pg.recs r)
    (hs : List.Pairwise (· ≤ ·) (leafVals pg.recs))
    (hnl : ¬((0 : Int) ≤ pg.flag ∧ r.dataval < valAt pg.recs 0))
    (hfull : P ≤ 8 + (recs1.length + 1) * ss) :
    ((∀ i, i < recs1.length → valAt recs1 i = valAt recs1 0) →
      leafInsertModel P ss newBlk pg r
        = (⟨(newBlk : Int), recs1.take 1⟩, some ⟨pg.flag, recs1.drop 1⟩,
           none))
    ∧ ((∃ i, i < recs1.length ∧ valAt recs1 i ≠ valAt recs1 0) →
      ∃ sp, 0 < sp ∧ sp < recs1.length
        ∧ leafInsertModel P ss newBlk pg r
          = (⟨pg.flag, recs1.take sp⟩, some ⟨-1, recs1.drop sp⟩,
             some (valAt recs1 sp, newBlk))
        ∧ (∀ i j, i < sp → sp ≤ j → j < recs1.length →
            valAt recs1 i ≠ valAt recs1 j)
        ∧ ((sp ≤ recs1.length / 2
              ∧ ∀ j, sp ≤ j → j ≤ recs1.length / 2 →
                  valAt recs1 j = valAt recs1 (recs1.length / 2))
            ∨ (recs1.length / 2 < sp
              ∧ ∀ j, recs1.length / 2 ≤ j → j < sp →
                  valAt recs1 j = valAt recs1 (recs1.length / 2)))) := by
  have hs1 : List.Pairwise (· ≤ ·) (leafVals recs1) := by
    rw [hr1]
    exact leafVals_insert_sorted pg.recs r hs
  have hlen1 : recs1.length = pg.recs.length + 1 := by
    rw [hr1]
    exact leafInsertRecs_length pg.recs r
  have hn1 : 1 ≤ recs1.length := by omega
  constructor
  · intro hall
    have heq : valAt recs1 0 = valAt recs1 (recs1.length - 1) :=
      (hall (recs1.length - 1) (by omega)).symm
    simp only [leafInsertModel]
    rw [← hr1, if_neg hnl, if_neg (Nat.not_lt.mpr hfull), if_pos heq]
  · intro hex
    have hne : ¬ valAt recs1 0 = valAt recs1 (recs1.length - 1) := by
      intro hc
      obtain ⟨i, hi, hiv⟩ := hex
      apply hiv
      have h1 : valAt recs1 0 ≤ valAt recs1 i :=
        valAt_mono recs1 hs1 0 i (by omega) hi
      have h2 : valAt recs1 i ≤ valAt recs1 (recs1.length - 1) :=
        valAt_mono recs1 hs1 i (recs1.length - 1) (by omega) (by omega)
      omega
    have hlast0 : valAt recs1 (recs1.length - 1) ≠ valAt recs1 0 :=
      fun hc => hne hc.symm
    by_cases hk : valAt recs1 (recs1.length / 2) = valAt recs1 0
    · -- middle key equals the first key: scan right
      have hwit : ∃ j, recs1.length / 2 ≤ j
          ∧ j < recs1.length / 2 + recs1.length
          ∧ (leafVals recs1).getD j 0 ≠ valAt recs1 (recs1.length / 2) := by
        refine ⟨recs1.length - 1, by omega, by omega, ?_⟩
        rw [getD_map_dataval, hk]
        exact hlast0
      obtain ⟨A, B, C, D⟩ := moveRight_spec (leafVals recs1)
        (valAt recs1 (recs1.length / 2)) recs1.length (recs1.length / 2) hwit
      set sp := moveRight (leafVals recs1) (valAt recs1 (recs1.length / 2))
        recs1.length (recs1.length / 2) with hsp
      have hrun : ∀ j, recs1.length / 2 ≤ j → j < sp →
          valAt recs1 j = valAt recs1 (recs1.length / 2) := by
        intro j h1 h2
        have h3 := C j h1 h2
        rwa [getD_map_dataval] at h3
      have hspval : valAt recs1 sp ≠ valAt recs1 (recs1.length / 2) := by
        rw [← getD_map_dataval]
        exact B
      have hsp_lt : sp < recs1.length := by
        have h4 := D (recs1.length - 1) (by omega)
          (by rw [getD_map_dataval, hk]; exact hlast0)
        omega
      have hsp_gt : recs1.length / 2 < sp := by
        rcases Nat.eq_or_lt_of_le A with he | h
        · exfalso
          exact hspval (by rw [← he])
        · exact h
      have hbord : valAt recs1 (sp - 1) = valAt recs1 (recs1.length / 2) :=
        hrun (sp - 1) (by omega) (by omega)
      refine ⟨sp, by omega, hsp_lt, ?_, ?_, Or.inr ⟨hsp_gt, hrun⟩⟩
      · simp only [leafInsertModel]
        rw [← hr1, if_neg hnl, if_neg (Nat.not_lt.mpr hfull), if_neg hne,
          if_pos hk]
      · intro i j hi hj hjn hc
        have h1 : valAt recs1 i ≤ valAt recs1 (sp - 1) :=
          valAt_mono recs1 hs1 i (sp - 1) (by omega) (by omega)
        have h2 : valAt recs1 sp ≤ valAt recs1 j :=
          valAt_mono recs1 hs1 sp j hj hjn
        have h3 : valAt recs1 (sp - 1) ≤ valAt recs1 sp :=
          valAt_mono recs1 hs1 (sp - 1) sp (by omega) hsp_lt
        omega
    · -- middle key differs from the first key: scan left
      have hfirst : (leafVals recs1).getD 0 0
          ≠ valAt recs1 (recs1.length / 2) := by
        rw [getD_map_dataval]
        exact fun hc => hk hc.symm
      have hmid1 : 1 ≤ recs1.length / 2 := by
        by_contra hc
        have hz : recs1.length / 2 = 0 := by omega
        rw [hz] at hk
        exact hk rfl
      obtain ⟨A, B, C, D⟩ := moveLeft_spec (leafVals recs1)
        (valAt recs1 (recs1.length / 2)) hfirst recs1.length
        (recs1.length / 2) hmid1 (Nat.div_le_self _ _)
      set sp := moveLeft (leafVals recs1) (valAt recs1 (recs1.length / 2))
        recs1.length (recs1.length / 2) with hsp
      have hrun : ∀ j, sp ≤ j → j < recs1.length / 2 →
          valAt recs1 j = valAt recs1 (recs1.length / 2) := by
        intro j h1 h2
        have h3 := D j h1 h2
        rwa [getD_map_dataval] at h3
      have hspval : valAt recs1 sp = valAt recs1 (recs1.length / 2) := by
        rcases Nat.eq_or_lt_of_le B with he | h
        · rw [he]
        · exact hrun sp (le_refl sp) h
      have hbord : valAt recs1 (sp - 1)
          ≠ valAt recs1 (recs1.length / 2) := by
        rw [← getD_map_dataval]
        exact C
      have hsp_lt : sp < recs1.length :=
        lt_of_le_of_lt B (Nat.div_lt_self (by omega) (by omega))
      have hrun2 : ∀ j, sp ≤ j → j ≤ recs1.length / 2 →
          valAt recs1 j = valAt recs1 (recs1.length / 2) := by
        intro j h1 h2
        rcases Nat.eq_or_lt_of_le h2 with he | h
        · rw [he]
        · exact hrun j h1 h
      refine ⟨sp, by omega, hsp_lt, ?_, ?_, Or.inl ⟨B, hrun2⟩⟩
      · simp only [leafInsertModel]
        rw [← hr1, if_neg hnl, if_neg (Nat.not_lt.mpr hfull), if_neg hne,
          if_neg hk, hspval]
      · intro i j hi hj hjn hc
        have h1 : valAt recs1 i ≤ valAt recs1 (sp - 1) :=
          valAt_mono recs1 hs1 i (sp - 1) (by omega) (by omega)
        have h2 : valAt recs1 sp ≤ valAt recs1 j :=
          valAt_mono recs1 hs1 sp j hj hjn
        have h3 : valAt recs1 (sp - 1) ≤ valAt recs1 sp :=
          valAt_mono recs1 hs1 (sp - 1) sp (by omega) hsp_lt
        omega

theorem btree_leaf_split_witness :
    ∃ sp, 0 < sp
      ∧ sp < ([⟨1,0,0⟩, ⟨2,0,0⟩, ⟨3,0,0⟩, ⟨4,9,9⟩] : List LeafRec).length
      ∧ leafInsertModel 16 4 7 ⟨-1, [⟨1,0,0⟩, ⟨2,0,0⟩, ⟨3,0,0⟩]⟩ ⟨4,9,9⟩
        = (⟨-1, ([⟨1,0,0⟩, ⟨2,0,0⟩, ⟨3,0,0⟩, ⟨4,9,9⟩] : List LeafRec).take sp⟩,
           some ⟨-1,
             ([⟨1,0,0⟩, ⟨2,0,0⟩, ⟨3,0,0⟩, ⟨4,9,9⟩] : List LeafRec).drop sp⟩,
           some (valAt [⟨1,0,0⟩, ⟨2,0,0⟩, ⟨3,0,0⟩, ⟨4,9,9⟩] sp, 7))
      ∧ (∀ i j, i < sp → sp ≤ j →
          j < ([⟨1,0,0⟩, ⟨2,0,0⟩, ⟨3,0,0⟩, ⟨4,9,9⟩] : List LeafRec).length →
          valAt [⟨1,0,0⟩, ⟨2,0,0⟩, ⟨3,0,0⟩, ⟨4,9,9⟩] i
            ≠ valAt [⟨1,0,0⟩, ⟨2,0,0⟩, ⟨3,0,0⟩, ⟨4,9,9⟩] j)
      ∧ ((sp ≤ ([⟨1,0,0⟩, ⟨2,0,0⟩, ⟨3,0,0⟩, ⟨4,9,9⟩] : List LeafRec).length / 2
            ∧ ∀ j, sp ≤ j →
              j ≤ ([⟨1,0,0⟩, ⟨2,0,0⟩, ⟨3,0,0⟩,
                    ⟨4,9,9⟩] : List LeafRec).length / 2 →
              valAt [⟨1,0,0⟩, ⟨2,0,0⟩, ⟨3,0,0⟩, ⟨4,9,9⟩] j
                = valAt [⟨1,0,0⟩, ⟨2,0,0⟩, ⟨3,0,0⟩, ⟨4,9,9⟩]
                    (([⟨1,0,0⟩, ⟨2,0,0⟩, ⟨3,0,0⟩,
                       ⟨4,9,9⟩] : List LeafRec).length / 2))
          ∨ (([⟨1,0,0⟩, ⟨2,0,0⟩, ⟨3,0,0⟩, ⟨4,9,9⟩] : List LeafRec).length / 2
                < sp
            ∧ ∀ j, ([⟨1,0,0⟩, ⟨2,0,0⟩, ⟨3,0,0⟩,
                     ⟨4,9,9⟩] : List LeafRec).length / 2 ≤ j → j < sp →
              valAt [⟨1,0,0⟩, ⟨2,0,0⟩, ⟨3,0,0⟩, ⟨4,9,9⟩] j
                = valAt [⟨1,0,0⟩, ⟨2,0,0⟩, ⟨3,0,0⟩, ⟨4,9,9⟩]
                    (([⟨1,0,0⟩, ⟨2,0,0⟩, ⟨3,0,0⟩,
                       ⟨4,9,9⟩] : List LeafRec).length / 2))) :=
  (btree_leaf_split 16 4 7 ⟨-1, [⟨1,0,0⟩, ⟨2,0,0⟩, ⟨3,0,0⟩]⟩ ⟨4,9,9⟩
    [⟨1,0,0⟩, ⟨2,0,0⟩, ⟨3,0,0⟩, ⟨4,9,9⟩] (by decide) (by decide) (by decide)
    (by decide)).2 ⟨3, by decide, by decide⟩

end DumbDB
